import Mathlib

/-!
Verification development for the DOCX comment-merge engine
(`mergeDocxAddNativeCommentsInPlace` and its helpers).

Strings of the source (JavaScript) are modelled as `List Char`; the XML DOM is
modelled by the inductive `XNode`; the third-party fuzzy scorer
(`fuzzball.partial_ratio` with `full_process: false`) is an abstract parameter
`pr : List Char → List Char → Nat` since its code is not part of the repository.
All other definitions are direct translations of the source functions and keep
their names.
-/

namespace WalkDocx

/-- Model of the JS regex class `\s` as used by `/\s/.test`, `/\s+/g` and
`String.prototype.trim` (restricted to the ASCII whitespace characters). -/
def isWsChar (c : Char) : Bool :=
  c = ' ' || c = '\t' || c = '\n' || c = '\x0d' || c = '\x0b' || c = '\x0c'

/-- The quote/dash folding of `normalizeForFuzzyIndexing` (source lines 352-355). -/
def mapQuoteChar (c : Char) : Char :=
  if c = '’' || c = '‘' || c = 'ʼ' || c = '＇' || c = '‛' then '\''
  else if c = '“' || c = '”' then '"'
  else if c = '–' || c = '—' then '-'
  else c

/-- Drop trailing whitespace (the right half of `String.prototype.trim`). -/
def dropTrail : List Char → List Char
  | [] => []
  | c :: rest =>
    match dropTrail rest with
    | [] => if isWsChar c then [] else [c]
    | r => c :: r

/-- Model of `String.prototype.trim`. -/
def trimBoth (l : List Char) : List Char :=
  dropTrail (l.dropWhile isWsChar)

/-- Does `l` start with `p`? (used to model `String.prototype.indexOf`). -/
def startsWithL : List Char → List Char → Bool
  | _, [] => true
  | [], _ :: _ => false
  | a :: as, b :: bs => a = b && startsWithL as bs

/-- Auxiliary scanner for `indexOfL`. -/
def indexOfAux (n : List Char) : List Char → Nat → Option Nat
  | [], k => if n = [] then some k else none
  | c :: t, k => if startsWithL (c :: t) n then some k else indexOfAux n t (k + 1)

/-- Model of `String.prototype.indexOf` (first occurrence, `none` for `-1`). -/
def indexOfL (h n : List Char) : Option Nat :=
  indexOfAux n h 0

/-- Model of `String.prototype.includes`. -/
def includesL (h n : List Char) : Bool :=
  (indexOfL h n).isSome

/-- Numeric value of a list of decimal digits. -/
def digitsVal (ds : List Char) : Nat :=
  ds.foldl (fun a c => a * 10 + (c.toNat - '0'.toNat)) 0

/-- Model of `Number.parseInt(s, 10)`: `none` is `NaN`. -/
def jsParseInt (s : String) : Option Int :=
  let cs := s.toList.dropWhile isWsChar
  let signAndRest : Int × List Char :=
    match cs with
    | '-' :: r => (-1, r)
    | '+' :: r => (1, r)
    | r => (1, r)
  let ds := signAndRest.2.takeWhile (fun c => c.isDigit)
  if ds = [] then none else some (signAndRest.1 * (digitsVal ds : Int))

/-- The collapsing loop of `cleanAnchorText` (`text.replace(/\s+/g, " ")`). -/
def collapseWsAux : List Char → Bool → List Char
  | [], _ => []
  | c :: rest, lastWs =>
    if isWsChar c then
      (if lastWs then [] else [' ']) ++ collapseWsAux rest true
    else
      c :: collapseWsAux rest false

/-- Source `cleanAnchorText` (line 277): collapse whitespace runs, then trim. -/
def cleanAnchorText (t : List Char) : List Char :=
  trimBoth (collapseWsAux t false)

/-- The character/index emitting loop of `normalizeForFuzzyIndexing`
(source lines 339-358): first component is the normalized text *before* the
final `.trim()`, second is `normToOrig`. -/
def normLoop : List Char → Nat → Bool → List Char × List Nat
  | [], _, _ => ([], [])
  | c :: rest, i, lastWasSpace =>
    if isWsChar c then
      if lastWasSpace then normLoop rest (i + 1) true
      else
        let r := normLoop rest (i + 1) true
        (' ' :: r.1, i :: r.2)
    else
      let r := normLoop rest (i + 1) false
      ((mapQuoteChar c).toLower :: r.1, i :: r.2)

/-- Source `normalizeForFuzzyIndexing` (lines 329-361). Note that the source
returns `normalized.trim()` while `normToOrig` is left untouched. -/
def normalizeForFuzzyIndexing (text : List Char) : List Char × List Nat :=
  let r := normLoop text 0 false
  (trimBoth r.1, r.2)

/-- Source `normalizeForFuzzySearch` (line 363). -/
def normalizeForFuzzySearch (text : List Char) : List Char :=
  (normalizeForFuzzyIndexing text).1

/-! ### The fuzzy window scan (stage 3 of `findApproxMatchStartIndex`) -/

/-- `scanNeedle` of source line 383: the anchor sample capped at 220 chars. -/
def scanNeedleOf (normAnchor : List Char) : List Char :=
  if 220 < normAnchor.length then normAnchor.take 220 else normAnchor

/-- `windowLen` of source line 384: `Math.min(Math.max(scanNeedle.length, 80), 260)`. -/
def scanWindowLen (normAnchor : List Char) : Nat :=
  min (max (scanNeedleOf normAnchor).length 80) 260

/-- `normPara.slice(pos, pos + windowLen)` for a window start `pos`. -/
def windowAt (normPara : List Char) (wl pos : Nat) : List Char :=
  (normPara.drop pos).take wl

/-- The scan loop body of source lines 389-398, iterated over the list of
window start positions; the accumulator is `(bestScore, bestPos)` with
`bestPos = -1` initially.  An empty window breaks out of the loop; a strict
improvement updates the best, and the loop exits once the best reaches 98. -/
def scanGo (pr : List Char → List Char → Nat) (normPara scanNeedle : List Char)
    (wl : Nat) : List Nat → Nat × Int → Nat × Int
  | [], best => best
  | pos :: rest, best =>
    let window := windowAt normPara wl pos
    if window = [] then best
    else
      let score := pr scanNeedle window
      if best.1 < score then
        if 98 ≤ score then (score, (pos : Int))
        else scanGo pr normPara scanNeedle wl rest (score, (pos : Int))
      else scanGo pr normPara scanNeedle wl rest best

/-- The window start positions visited by
`for (pos = 0; pos <= Math.max(0, normPara.length - 1); pos += 5)`. -/
def scanPositions (paraLen : Nat) : List Nat :=
  List.range' 0 ((paraLen - 1) / 5 + 1) 5

/-- Stage 3 of `findApproxMatchStartIndex` (source lines 383-404): the fuzzy
window scan over the normalized paragraph. -/
def fuzzyStage (pr : List Char → List Char → Nat) (normPara : List Char)
    (normToOrig : List Nat) (normAnchor : List Char) : Option Nat :=
  let scanNeedle := scanNeedleOf normAnchor
  let wl := scanWindowLen normAnchor
  let best := scanGo pr normPara scanNeedle wl (scanPositions normPara.length) (0, -1)
  if 0 ≤ best.2 ∧ 60 ≤ best.1 then normToOrig[best.2.toNat]? else none

/-- Source `findApproxMatchStartIndex` (lines 367-405): direct normalized
substring search, then the ≥ 12 char normalized-anchor-head search, then the
fuzzy window scan. -/
def findApproxMatchStartIndex (pr : List Char → List Char → Nat)
    (paragraphText anchorText : List Char) : Option Nat :=
  let np := normalizeForFuzzyIndexing paragraphText
  let normPara := np.1
  let normToOrig := np.2
  let normAnchor := normalizeForFuzzySearch anchorText
  if normAnchor = [] then none
  else
    match indexOfL normPara normAnchor with
    | some direct => normToOrig[direct]?
    | none =>
      let pfx := trimBoth (normAnchor.take 80)
      let viaPfx : Option Nat :=
        if 12 ≤ pfx.length then indexOfL normPara pfx else none
      match viaPfx with
      | some idx => normToOrig[idx]?
      | none => fuzzyStage pr normPara normToOrig normAnchor

/-! ### The XML node model and the paragraph walkers -/

/-- The wordprocessingml main namespace (source line 272). -/
def wNS : String := "http://schemas.openxmlformats.org/wordprocessingml/2006/main"

/-- A DOM node: an element with a namespace, local tag name, attributes
(qualified-name/value pairs) and children, or a text node. -/
inductive XNode where
  | elem (ns : String) (tag : String) (attrs : List (String × String)) (children : List XNode)
  | txt (s : List Char)

/-- Attribute lookup on an attribute list. -/
def getAttrL (attrs : List (String × String)) (name : String) : Option String :=
  (attrs.find? (fun a => a.1 = name)).map (fun a => a.2)

/-- Attribute lookup on a node. -/
def getXAttr (n : XNode) (name : String) : Option String :=
  match n with
  | .elem _ _ attrs _ => getAttrL attrs name
  | .txt _ => none

mutual

/-- `textContent` of a node: concatenation of all descendant text. -/
def allTextN : XNode → List Char
  | .txt s => s
  | .elem _ _ _ cs => allTextF cs

/-- `textContent` of a forest. -/
def allTextF : List XNode → List Char
  | [] => []
  | n :: rest => allTextN n ++ allTextF rest

end

mutual

/-- Contribution of one node (itself plus its subtree) to the element walk of
`getParagraphText` (source lines 311-327): `w:t` contributes its text content,
`w:tab` a tab, `w:br`/`w:cr` a newline; the walk then descends into children. -/
def walkTextN : XNode → List Char
  | .txt _ => []
  | .elem ns tag _ cs =>
    (if ns = wNS then
      if tag = "t" then allTextF cs
      else if tag = "tab" then ['\t']
      else if tag = "br" || tag = "cr" then ['\n']
      else []
    else []) ++ walkTextF cs

/-- The element walk over a forest. -/
def walkTextF : List XNode → List Char
  | [] => []
  | n :: rest => walkTextN n ++ walkTextF rest

end

/-- Source `getParagraphText` (lines 311-327): the tree walker visits every
descendant element of the paragraph (the paragraph itself excluded). -/
def getParagraphText : XNode → List Char
  | .txt _ => []
  | .elem _ _ _ cs => walkTextF cs

mutual

/-- Length contribution of one node to `getChildTextLength`'s walk
(source lines 555-569). -/
def lenWalkN : XNode → Nat
  | .txt _ => 0
  | .elem ns tag _ cs =>
    (if ns = wNS then
      if tag = "t" then (allTextF cs).length
      else if tag = "tab" || tag = "br" || tag = "cr" then 1
      else 0
    else 0) + lenWalkF cs

/-- Length walk over a forest. -/
def lenWalkF : List XNode → Nat
  | [] => 0
  | n :: rest => lenWalkN n + lenWalkF rest

end

/-- Source `getChildTextLength` (lines 555-569): same walk, restricted to the
child's subtree (the child itself excluded by the tree walker). -/
def getChildTextLength : XNode → Nat
  | .txt _ => 0
  | .elem _ _ _ cs => lenWalkF cs

/-! ### Anchor candidates and the insertion transform -/

mutual

/-- Is this node, or any descendant, a `w:commentReference` element?  Models
`el.getElementsByTagNameNS(W_NS, "commentReference").length > 0` for the
*children* forest of an element (that call searches descendants only). -/
def hasCommentRefN : XNode → Bool
  | .txt _ => false
  | .elem ns tag _ cs => (ns = wNS && tag = "commentReference") || hasCommentRefF cs

/-- `hasCommentRefN` over a forest. -/
def hasCommentRefF : List XNode → Bool
  | [] => false
  | n :: rest => hasCommentRefN n || hasCommentRefF rest

end

/-- The eligibility filter of `getDirectChildAnchorCandidates`
(source lines 539-553). -/
def isAnchorCandidate : XNode → Bool
  | .txt _ => false
  | .elem ns tag _ cs =>
    ns = wNS && tag ≠ "pPr" && tag ≠ "commentRangeStart" && tag ≠ "commentRangeEnd" &&
      (tag ≠ "r" || !hasCommentRefF cs)

/-- Source `getDirectChildAnchorCandidates` (lines 539-553). -/
def getDirectChildAnchorCandidates : XNode → List XNode
  | .txt _ => []
  | .elem _ _ _ cs => cs.filter isAnchorCandidate

/-- The cumulative walk of `findBestAnchorCandidateIndexForOffset`
(source lines 575-581): `i` is the index of the head candidate, `cursor` the
cumulative length so far; an exhausted list returns `i - 1`
(`candidates.length - 1`). -/
def findIdxAux (offset : Nat) : List XNode → Nat → Nat → Nat
  | [], i, _cursor => i - 1
  | c :: rest, i, cursor =>
    let nodeLen := getChildTextLength c
    if offset < cursor + max 1 nodeLen then i
    else findIdxAux offset rest (i + 1) (cursor + max 1 nodeLen)

/-- Source `findBestAnchorCandidateIndexForOffset` (lines 571-582). -/
def findBestAnchorCandidateIndexForOffset (p : XNode) (offset : Nat) : Nat :=
  let candidates := getDirectChildAnchorCandidates p
  if candidates.isEmpty then 0 else findIdxAux offset candidates 0 0

/-- The XML namespace (source line 275), used for `xml:space`. -/
def xmlNS : String := "http://www.w3.org/XML/1998/namespace"

/-- Source `createSpaceRun` (lines 530-537). -/
def createSpaceRun : XNode :=
  .elem wNS "r" [] [.elem wNS "t" [("xml:space", "preserve")] [.txt [' ']]]

/-- The `w:commentRangeStart` marker carrying the comment id. -/
def commentRangeStartNode (commentId : Int) : XNode :=
  .elem wNS "commentRangeStart" [("w:id", toString commentId)] []

/-- The `w:commentRangeEnd` marker carrying the comment id. -/
def commentRangeEndNode (commentId : Int) : XNode :=
  .elem wNS "commentRangeEnd" [("w:id", toString commentId)] []

/-- Source `createCommentReferenceRun` (lines 584-596). -/
def createCommentReferenceRun (commentId : Int) : XNode :=
  .elem wNS "r" []
    [.elem wNS "rPr" [] [.elem wNS "rStyle" [("w:val", "CommentReference")] []],
     .elem wNS "commentReference" [("w:id", toString commentId)] []]

/-- Splice `commentRangeStart`, `commentRangeEnd` and the comment-reference run
around the `k`-th anchor candidate of the children list (counting candidates by
`isAnchorCandidate`); `none` when fewer than `k + 1` candidates exist.  This is
the positional reading of the DOM pointer operations of source lines 598-621. -/
def insertAnchorAux (commentId : Int) : List XNode → Nat → Option (List XNode)
  | [], _ => none
  | c :: rest, k =>
    if isAnchorCandidate c then
      match k with
      | 0 => some (commentRangeStartNode commentId :: c :: commentRangeEndNode commentId ::
          createCommentReferenceRun commentId :: rest)
      | k' + 1 => (insertAnchorAux commentId rest k').map (fun cs => c :: cs)
    else (insertAnchorAux commentId rest k).map (fun cs => c :: cs)

/-- Source `insertCommentAnchorIntoParagraph` (lines 598-621): wrap the chosen
candidate, or, when `anchorIndex` is past the candidate list
(`candidates[anchorIndex] ?? null`), append a synthesized space run and wrap
that. -/
def insertCommentAnchorIntoParagraph (paragraph : XNode) (commentId : Int)
    (anchorIndex : Nat) : XNode :=
  match paragraph with
  | .txt s => .txt s
  | .elem ns tag attrs cs =>
    match insertAnchorAux commentId cs anchorIndex with
    | some cs' => .elem ns tag attrs cs'
    | none => .elem ns tag attrs (cs ++ [commentRangeStartNode commentId, createSpaceRun,
        commentRangeEndNode commentId, createCommentReferenceRun commentId])

/-! ### The comments part -/

mutual

/-- All `w:comment` elements of a tree, in document (pre-)order, the node
itself included — models `getElementsByTagNameNS(W_NS, "comment")` on the
comments document. -/
def commentElemsN : XNode → List XNode
  | .txt _ => []
  | .elem ns tag attrs cs =>
    (if ns = wNS ∧ tag = "comment" then [XNode.elem ns tag attrs cs] else []) ++ commentElemsF cs

/-- `commentElemsN` over a forest. -/
def commentElemsF : List XNode → List XNode
  | [] => []
  | n :: rest => commentElemsN n ++ commentElemsF rest

end

/-- Source `getMaxCommentId` (lines 429-438): fold the parsed `w:id`
attributes, starting from 0, keeping non-`NaN` values that exceed the running
maximum.  (`getAttributeNS(W_NS, "id") ?? getAttribute("w:id")` both resolve to
the qualified attribute name `w:id` in this model.) -/
def getMaxCommentId (commentsDoc : XNode) : Int :=
  (commentElemsN commentsDoc).foldl
    (fun mx n =>
      match jsParseInt ((getXAttr n "w:id").getD "0") with
      | some v => if mx < v then v else mx
      | none => mx)
    0

/-- The `w:comment` node built by `addNativeComment` (source lines 497-522):
an `annotationRef` run followed by the whitespace-preserving text run. -/
def commentNode (commentId : Int) (author : String) (isoDate : String)
    (text : List Char) : XNode :=
  .elem wNS "comment"
    [("w:id", toString commentId), ("w:author", author), ("w:date", isoDate)]
    [.elem wNS "p" []
      [.elem wNS "r" [] [.elem wNS "annotationRef" [] []],
       .elem wNS "r" [] [.elem wNS "t" [("xml:space", "preserve")] [.txt text]]]]

mutual

/-- Append `c` as the last child of the first `w:comments` element of the tree
(document order, the root included first) — models
`commentsDoc.getElementsByTagNameNS(W_NS, "comments")[0]` plus `appendChild`.
`none` when no such element exists. -/
def appendToCommentsN (c : XNode) : XNode → Option XNode
  | .txt _ => none
  | .elem ns tag attrs cs =>
    if ns = wNS ∧ tag = "comments" then some (.elem ns tag attrs (cs ++ [c]))
    else
      match appendToCommentsF c cs with
      | some cs' => some (.elem ns tag attrs cs')
      | none => none

/-- `appendToCommentsN` over a forest (first match wins). -/
def appendToCommentsF (c : XNode) : List XNode → Option (List XNode)
  | [] => none
  | n :: rest =>
    match appendToCommentsN c n with
    | some n' => some (n' :: rest)
    | none => (appendToCommentsF c rest).map (fun l => n :: l)

end

/-- Source `addNativeComment` (lines 497-522): append the comment node to the
first `w:comments` element, falling back to the document element
(`... || commentsDoc.documentElement`, i.e. the root of this model). -/
def addNativeComment (commentsDoc : XNode) (commentId : Int) (author : String)
    (isoDate : String) (text : List Char) : XNode :=
  match appendToCommentsN (commentNode commentId author isoDate text) commentsDoc with
  | some d => d
  | none =>
    match commentsDoc with
    | .elem ns tag attrs cs => .elem ns tag attrs (cs ++ [commentNode commentId author isoDate text])
    | .txt s => .txt s

/-! ### Paragraph matching and the merge loop -/

/-- Result record of `findBestParagraphMatch` (`bestIndex = -1` when nothing
matched). -/
structure BestMatch where
  bestIndex : Int
  bestScore : Nat
  bestMethod : String

/-- The scan of `findBestParagraphMatch` over indexed paragraph texts
(source lines 415-424): paragraphs whose raw text trims to empty are skipped;
a strictly higher score moves the best (first-seen wins on ties). -/
def bestFold (pr : List Char → List Char → Nat) (cleanAnchor : List Char) :
    List (Nat × List Char) → Nat × Int → Nat × Int
  | [], best => best
  | (i, t) :: rest, best =>
    if trimBoth t = [] then bestFold pr cleanAnchor rest best
    else
      let score := pr cleanAnchor t
      if best.1 < score then bestFold pr cleanAnchor rest (score, (i : Int))
      else bestFold pr cleanAnchor rest best

/-- Source `findBestParagraphMatch` (lines 407-427).  `scoreMatch` is
`fuzzball.partial_ratio(anchor, paragraph, { full_process: false })`, here the
abstract `pr`; its method label is the constant string of source line 286. -/
def findBestParagraphMatch (pr : List Char → List Char → Nat)
    (paragraphs : List XNode) (paragraphTexts : List (List Char))
    (anchorText : List Char) : BestMatch :=
  let cleanAnchor := cleanAnchorText anchorText
  if cleanAnchor = [] then ⟨-1, 0, "partial_ratio"⟩
  else
    let idxTexts := (List.range paragraphs.length).map (fun i => (i, paragraphTexts.getD i []))
    let best := bestFold pr cleanAnchor idxTexts (0, -1)
    ⟨best.2, best.1, "partial_ratio"⟩

/-- The in-loop position search of `mergeDocxAddNativeCommentsInPlace`
(source lines 675-693), extracted as a function: returns the `startMethod`
string and `approxStart`. -/
def locateStart (pr : List Char → List Char → Nat) (paraText anchor : List Char) :
    String × Option Nat :=
  let normPara := (normalizeForFuzzyIndexing paraText).1
  let normAnchor := normalizeForFuzzySearch anchor
  if normAnchor ≠ [] ∧ includesL normPara normAnchor then
    ("substring", findApproxMatchStartIndex pr paraText anchor)
  else
    let pfx := if normAnchor ≠ [] then trimBoth (normAnchor.take 80) else []
    if pfx ≠ [] ∧ includesL normPara pfx then
      ("prefix", findApproxMatchStartIndex pr paraText anchor)
    else
      match findApproxMatchStartIndex pr paraText anchor with
      | some v => ("fuzzy", some v)
      | none => ("none", none)

/-- The bounded linear probe `while (used.has(anchorIdx)) anchorIdx++`
(source lines 698-700), with enough fuel to clear the finite `used` set. -/
def probeFrom (used : List Nat) : Nat → Nat → Nat
  | 0, k => k
  | fuel + 1, k => if k ∈ used then probeFrom used fuel (k + 1) else k

/-- The linear probe with its canonical fuel. -/
def nextFreeIdx (used : List Nat) (k : Nat) : Nat :=
  probeFrom used (used.length + 1) k

/-- One input comment record (source `MergeCommentItem`, lines 250-255). -/
structure MergeItem where
  anchor_text : Option (List Char)
  comment_text : Option (List Char)
  author : Option String
  edit_type_label : Option String

/-- One `details` entry of the merge report (source lines 260-269). -/
structure Detail where
  index : Nat
  score : Nat
  anchorPreview : List Char
  targetPreview : List Char
  method : String
  approxStart : Option Nat
  anchorNodeIndex : Nat
  startMethod : String

/-- Lookup in the `usedAnchorIndicesByParagraph` map (a `Map<number, Set<number>>`). -/
def mapGetUsed (m : List (Nat × List Nat)) (k : Nat) : Option (List Nat) :=
  (m.find? (fun e => e.1 = k)).map (fun e => e.2)

/-- `Map.set`: replace the binding if the key exists, otherwise append it. -/
def mapSetUsed (m : List (Nat × List Nat)) (k : Nat) (v : List Nat) : List (Nat × List Nat) :=
  if m.any (fun e => e.1 = k) then m.map (fun e => if e.1 = k then (k, v) else e)
  else m ++ [(k, v)]

/-- The mutable state threaded through the record loop of
`mergeDocxAddNativeCommentsInPlace` (lines 643-717). -/
structure LoopState where
  paragraphs : List XNode
  commentsDoc : XNode
  nextCommentId : Int
  mergedCount : Nat
  details : List Detail
  usedMap : List (Nat × List Nat)

/-- `a.trim() || b` on strings (the author default of source line 659). -/
def jsOrStr (a b : String) : String :=
  if a = "" then b else a

/-- Model of `String.prototype.trim` on `String` values. -/
def strTrim (s : String) : String :=
  String.mk (trimBoth s.toList)

/-- The record author default: `(item.author ?? "Reviewer").trim() || "Reviewer"`
(source line 659). -/
def mergeAuthor (item : MergeItem) : String :=
  jsOrStr (strTrim (item.author.getD "Reviewer")) "Reviewer"

/-- The comment body with the optional edit-type label: the source prefixes
the text with the bracketed label when `edit_type_label` is truthy
(lines 668-669). -/
def mergeFullText (item : MergeItem) : List Char :=
  (match item.edit_type_label with
   | some l => if l = "" then [] else '[' :: l.toList ++ [']', ' ']
   | none => []) ++ item.comment_text.getD []

/-- The anchor-node index used for a record against its chosen paragraph: the
offset-derived candidate index, linearly probed past the per-paragraph used
set (source lines 695-700). -/
def mergeAnchorIdx (pr : List Char → List Char → Nat) (paraText anchor : List Char)
    (paragraph : XNode) (used : List Nat) : Nat :=
  nextFreeIdx used
    (findBestAnchorCandidateIndexForOffset paragraph ((locateStart pr paraText anchor).2.getD 0))

/-- The body of one matched record-loop iteration: everything the source does
once the paragraph is fixed (lines 666-716). -/
def mergeStepCore (pr : List Char → List Char → Nat) (paragraphTexts : List (List Char))
    (nowIso : String) (s : LoopState) (i : Nat) (item : MergeItem)
    (bm : BestMatch) (paragraph : XNode) : LoopState :=
  let anchor := item.anchor_text.getD []
  let bi := bm.bestIndex.toNat
  let paraText := paragraphTexts.getD bi []
  let loc := locateStart pr paraText anchor
  let used := (mapGetUsed s.usedMap bi).getD []
  let anchorIdx := mergeAnchorIdx pr paraText anchor paragraph used
  { paragraphs := s.paragraphs.set bi
      (insertCommentAnchorIntoParagraph paragraph s.nextCommentId anchorIdx)
    commentsDoc := addNativeComment s.commentsDoc s.nextCommentId (mergeAuthor item) nowIso
      (mergeFullText item)
    nextCommentId := s.nextCommentId + 1
    mergedCount := s.mergedCount + 1
    details := s.details ++
      [⟨i, bm.bestScore, (cleanAnchorText anchor).take 80,
        (cleanAnchorText (paragraphTexts.getD bi [])).take 80, bm.bestMethod,
        loc.2, anchorIdx, loc.1⟩]
    usedMap := mapSetUsed s.usedMap bi (anchorIdx :: used) }

/-- One iteration of the record loop of `mergeDocxAddNativeCommentsInPlace`
(source lines 655-717): match a paragraph (skip on `bestIndex < 0`, or on a
missing paragraph node), then run the matched-record body. -/
def mergeStep (pr : List Char → List Char → Nat) (paragraphTexts : List (List Char))
    (nowIso : String) (s : LoopState) (i : Nat) (item : MergeItem) : LoopState :=
  let bm := findBestParagraphMatch pr s.paragraphs paragraphTexts (item.anchor_text.getD [])
  if bm.bestIndex < 0 then s
  else
    match s.paragraphs[bm.bestIndex.toNat]? with
    | none => s
    | some paragraph => mergeStepCore pr paragraphTexts nowIso s i item bm paragraph

/-- The record loop (`for (let i = 0; i < items.length; i++)`). -/
def mergeLoopAux (pr : List Char → List Char → Nat) (paragraphTexts : List (List Char))
    (nowIso : String) : List MergeItem → Nat → LoopState → LoopState
  | [], _, s => s
  | item :: rest, i, s =>
    mergeLoopAux pr paragraphTexts nowIso rest (i + 1) (mergeStep pr paragraphTexts nowIso s i item)

/-- The merge run (the record-loop portion of `mergeDocxAddNativeCommentsInPlace`,
lines 643-717): the paragraph index and its extracted texts are built once, the
next comment id is seeded from `getMaxCommentId + 1`, and the loop is folded
over all records. -/
def runMerge (pr : List Char → List Char → Nat) (paragraphs : List XNode)
    (commentsDoc : XNode) (nowIso : String) (items : List MergeItem) : LoopState :=
  let paragraphTexts := paragraphs.map getParagraphText
  mergeLoopAux pr paragraphTexts nowIso items 0
    { paragraphs := paragraphs
      commentsDoc := commentsDoc
      nextCommentId := getMaxCommentId commentsDoc + 1
      mergedCount := 0
      details := []
      usedMap := [] }

/-! ### Package rewriter fix-ups -/

/-- An `Override` element of `[Content_Types].xml` (absent attributes modelled
as `""`, which compares unequal to every non-empty literal exactly as `null`
does in the source). -/
structure CTOverride where
  partName : String
  contentType : String

/-- The `Override` appended for the comments part (source lines 445-451). -/
def commentsOverride : CTOverride :=
  ⟨"/word/comments.xml",
   "application/vnd.openxmlformats-officedocument.wordprocessingml.comments+xml"⟩

/-- Source `ensureCommentsPartInContentTypes` (lines 440-453), over the list of
`Override` elements in document order. -/
def ensureCommentsPartInContentTypes (overrides : List CTOverride) : List CTOverride :=
  if overrides.any (fun o => o.partName = "/word/comments.xml") then overrides
  else overrides ++ [commentsOverride]

/-- A `Relationship` element of `word/_rels/document.xml.rels`. -/
structure XRel where
  id : String
  type : String
  target : String

/-- The comments relationship type (source line 459). -/
def commentsRelType : String :=
  "http://schemas.openxmlformats.org/officeDocument/2006/relationships/comments"

/-- The regex `^rId(\d+)$` plus `Number.parseInt` of source lines 467-470. -/
def parseRIdNum (s : String) : Option Nat :=
  match s.toList with
  | 'r' :: 'I' :: 'd' :: rest =>
    if rest ≠ [] ∧ rest.all (fun c => c.isDigit) then some (digitsVal rest) else none
  | _ => none

/-- The `maxNum` fold of source lines 465-473. -/
def maxRIdNum (rels : List XRel) : Nat :=
  rels.foldl
    (fun mx r =>
      match parseRIdNum r.id with
      | some n => if mx < n then n else mx
      | none => mx)
    0

/-- Source `ensureCommentsRelationship` (lines 455-483): return the existing
comments relationship id, or synthesize `rId(maxNum + 1)` and append the
relationship; the returned pair is (relationship id, updated part). -/
def ensureCommentsRelationship (rels : List XRel) : String × List XRel :=
  match rels.find? (fun r => r.type = commentsRelType) with
  | some r => (jsOrStr r.id "rIdComments", rels)
  | none =>
    let newId := "rId" ++ toString (maxRIdNum rels + 1)
    (newId, rels ++ [⟨newId, commentsRelType, "comments.xml"⟩])

/-! ### Character-level lemmas -/

/-- The character a given original character contributes to the normalized
text: a collapsed space for whitespace, otherwise the lowercased quote-folded
character. -/
def normCharOf (c : Char) : Char :=
  if isWsChar c then ' ' else (mapQuoteChar c).toLower

theorem char_toNat_ofNat_valid (m : Nat) (h : m.isValidChar) :
    (Char.ofNat m).toNat = m := by
  simp only [Char.ofNat, dif_pos h, Char.ofNatAux, Char.toNat, UInt32.toNat]
  simp

theorem isWsChar_eq_false_of_toNat (x : Char)
    (h : x.toNat ≠ 32 ∧ x.toNat ≠ 9 ∧ x.toNat ≠ 10 ∧ x.toNat ≠ 13 ∧ x.toNat ≠ 11 ∧ x.toNat ≠ 12) :
    isWsChar x = false := by
  have hne : ∀ d : Char, x.toNat ≠ d.toNat → (x = d) = False := by
    intro d hd
    simp only [eq_iff_iff, iff_false]
    intro he
    exact hd (by rw [he])
  simp only [isWsChar, Bool.or_eq_false_iff, decide_eq_false_iff_not]
  refine ⟨⟨⟨⟨⟨?_, ?_⟩, ?_⟩, ?_⟩, ?_⟩, ?_⟩ <;> intro he <;> subst he <;> simp_all

theorem isWs_toLower (c : Char) : isWsChar c.toLower = isWsChar c := by
  show isWsChar (if c.toNat ≥ 65 ∧ c.toNat ≤ 90 then Char.ofNat (c.toNat + 32) else c)
      = isWsChar c
  by_cases hcond : c.toNat ≥ 65 ∧ c.toNat ≤ 90
  · rw [if_pos hcond]
    have hv : (c.toNat + 32).isValidChar := Or.inl (by omega)
    have ht : (Char.ofNat (c.toNat + 32)).toNat = c.toNat + 32 :=
      char_toNat_ofNat_valid _ hv
    have h1 : isWsChar (Char.ofNat (c.toNat + 32)) = false :=
      isWsChar_eq_false_of_toNat _ (by omega)
    have h2 : isWsChar c = false := isWsChar_eq_false_of_toNat _ (by omega)
    rw [h1, h2]
  · rw [if_neg hcond]

theorem isWs_mapQuote (c : Char) : isWsChar (mapQuoteChar c) = isWsChar c := by
  unfold mapQuoteChar
  split
  · next h =>
    simp only [Bool.or_eq_true, decide_eq_true_eq] at h
    rcases h with ((((h | h) | h) | h) | h) <;> subst h <;> decide
  · split
    · next h =>
      simp only [Bool.or_eq_true, decide_eq_true_eq] at h
      rcases h with h | h <;> subst h <;> decide
    · split
      · next h =>
        simp only [Bool.or_eq_true, decide_eq_true_eq] at h
        rcases h with h | h <;> subst h <;> decide
      · rfl

theorem isWs_normCharOf (c : Char) : isWsChar (normCharOf c) = true ↔ normCharOf c = ' ' := by
  unfold normCharOf
  split
  · simp [isWsChar]
  · next h =>
    rw [isWs_toLower, isWs_mapQuote]
    simp only [Bool.not_eq_true] at h
    rw [h]
    constructor
    · intro hf
      exact absurd hf (by simp)
    · intro he
      have : isWsChar ((mapQuoteChar c).toLower) = true := by rw [he]; rfl
      rw [isWs_toLower, isWs_mapQuote, h] at this
      exact absurd this (by simp)

theorem normCharOf_not_ws (c : Char) (h : isWsChar c = false) :
    isWsChar (normCharOf c) = false := by
  unfold normCharOf
  rw [if_neg (by simp [h]), isWs_toLower, isWs_mapQuote, h]

/-! ### Trimming lemmas -/

theorem dropTrail_cons_of_ne_nil (c : Char) (rest : List Char)
    (h : dropTrail rest ≠ []) : dropTrail (c :: rest) = c :: dropTrail rest := by
  cases hdt : dropTrail rest with
  | nil => exact absurd hdt h
  | cons d r => simp [dropTrail, hdt]

theorem dropTrail_cons_of_nil (c : Char) (rest : List Char)
    (h : dropTrail rest = []) :
    dropTrail (c :: rest) = if isWsChar c then [] else [c] := by
  simp [dropTrail, h]

theorem dropTrail_spec (l : List Char) :
    ∃ s, l = dropTrail l ++ s ∧ ∀ c ∈ s, isWsChar c = true := by
  induction l with
  | nil => exact ⟨[], rfl, by simp⟩
  | cons c rest ih =>
    obtain ⟨s, hs, hws⟩ := ih
    cases hdt : dropTrail rest with
    | nil =>
      rw [hdt] at hs
      simp only [List.nil_append] at hs
      by_cases hc : isWsChar c
      · refine ⟨c :: rest, ?_, ?_⟩
        · simp [dropTrail, hdt, hc]
        · intro x hx
          rcases List.mem_cons.mp hx with h | h
          · exact h ▸ hc
          · exact hws x (hs ▸ h)
      · refine ⟨rest, ?_, ?_⟩
        · simp [dropTrail, hdt, hc]
        · intro x hx
          exact hws x (hs ▸ hx)
    | cons d r =>
      refine ⟨s, ?_, hws⟩
      have heq : dropTrail (c :: rest) = c :: dropTrail rest :=
        dropTrail_cons_of_ne_nil c rest (by simp [hdt])
      rw [heq]
      simp only [List.cons_append]
      rw [← hs]

theorem dropTrail_length_le (l : List Char) : (dropTrail l).length ≤ l.length := by
  obtain ⟨s, hs, _⟩ := dropTrail_spec l
  conv_rhs => rw [hs]
  simp

theorem dropTrail_getLast_not_ws (l : List Char) :
    ∀ x, (dropTrail l).getLast? = some x → isWsChar x = false := by
  induction l with
  | nil => intro x hx; simp [dropTrail] at hx
  | cons c rest ih =>
    intro x hx
    cases hdt : dropTrail rest with
    | nil =>
      rw [dropTrail_cons_of_nil c rest hdt] at hx
      by_cases hc : isWsChar c
      · rw [if_pos hc] at hx
        simp at hx
      · rw [if_neg hc] at hx
        simp only [List.getLast?_singleton, Option.some.injEq] at hx
        rw [← hx]
        simp [hc]
    | cons d r =>
      rw [dropTrail_cons_of_ne_nil c rest (by simp [hdt]), hdt,
        List.getLast?_cons_cons] at hx
      exact ih x (hdt ▸ hx)

theorem dropTrail_eq_self (l : List Char)
    (h : ∀ x, l.getLast? = some x → isWsChar x = false) : dropTrail l = l := by
  induction l with
  | nil => rfl
  | cons c rest ih =>
    cases hrest : rest with
    | nil =>
      subst hrest
      have hc := h c (by simp)
      rw [dropTrail_cons_of_nil c [] rfl, if_neg (by simp [hc])]
    | cons d r =>
      subst hrest
      have hlast : ∀ x, (d :: r).getLast? = some x → isWsChar x = false := by
        intro x hx
        exact h x (by rw [List.getLast?_cons_cons]; exact hx)
      have hr : dropTrail (d :: r) = d :: r := ih hlast
      rw [dropTrail_cons_of_ne_nil c (d :: r) (by simp [hr]), hr]

theorem head_dropWhile_not (p : Char → Bool) (l : List Char) :
    ∀ x, (l.dropWhile p).head? = some x → p x = false := by
  induction l with
  | nil => intro x hx; simp [List.dropWhile] at hx
  | cons c rest ih =>
    intro x hx
    by_cases hc : p c
    · rw [List.dropWhile_cons, if_pos hc] at hx
      exact ih x hx
    · rw [List.dropWhile_cons, if_neg hc] at hx
      simp only [List.head?_cons, Option.some.injEq] at hx
      rw [← hx]
      simp [hc]

theorem dropWhile_eq_self_of_head (p : Char → Bool) (l : List Char)
    (h : ∀ x, l.head? = some x → p x = false) : l.dropWhile p = l := by
  cases l with
  | nil => rfl
  | cons c rest =>
    have hc := h c (by simp)
    rw [List.dropWhile_cons, if_neg (by simp [hc])]

theorem head_of_dropTrail (l : List Char) (x : Char)
    (h : (dropTrail l).head? = some x) : l.head? = some x := by
  obtain ⟨s, hs, _⟩ := dropTrail_spec l
  rw [hs]
  cases hdt : dropTrail l with
  | nil => rw [hdt] at h; simp at h
  | cons d r =>
    rw [hdt] at h
    simp only [List.head?_cons, Option.some.injEq] at h
    simp [hdt, ← h]

theorem trimBoth_head_not_ws (l : List Char) :
    ∀ x, (trimBoth l).head? = some x → isWsChar x = false := by
  intro x hx
  have := head_of_dropTrail _ x hx
  exact head_dropWhile_not isWsChar l x this

theorem trimBoth_getLast_not_ws (l : List Char) :
    ∀ x, (trimBoth l).getLast? = some x → isWsChar x = false :=
  fun x hx => dropTrail_getLast_not_ws _ x hx

theorem trimBoth_idem (l : List Char) : trimBoth (trimBoth l) = trimBoth l := by
  have h1 : (trimBoth l).dropWhile isWsChar = trimBoth l :=
    dropWhile_eq_self_of_head isWsChar _ (trimBoth_head_not_ws l)
  calc trimBoth (trimBoth l) = dropTrail ((trimBoth l).dropWhile isWsChar) := rfl
    _ = dropTrail (trimBoth l) := by rw [h1]
    _ = trimBoth l := dropTrail_eq_self _ (trimBoth_getLast_not_ws l)

theorem trimBoth_length_le (l : List Char) : (trimBoth l).length ≤ l.length :=
  le_trans (dropTrail_length_le _) ((List.dropWhile_sublist isWsChar).length_le)

/-! ### No-double-space reasoning -/

/-- The relation "not both characters are spaces", holding between adjacent
characters of a whitespace-collapsed string. -/
def noTwoSp (a b : Char) : Prop := ¬(a = ' ' ∧ b = ' ')

theorem chain'_append_left {R : Char → Char → Prop} {l₁ l₂ : List Char}
    (h : List.Chain' R (l₁ ++ l₂)) : List.Chain' R l₁ :=
  (List.chain'_append.mp h).1

theorem chain'_append_right {R : Char → Char → Prop} {l₁ l₂ : List Char}
    (h : List.Chain' R (l₁ ++ l₂)) : List.Chain' R l₂ :=
  (List.chain'_append.mp h).2.1

theorem chain'_dropWhile {R : Char → Char → Prop} {l : List Char} (p : Char → Bool)
    (h : List.Chain' R l) : List.Chain' R (l.dropWhile p) := by
  obtain ⟨t, ht⟩ := List.dropWhile_suffix (l := l) p
  exact chain'_append_right (ht ▸ h)

theorem chain'_dropTrail {R : Char → Char → Prop} {l : List Char}
    (h : List.Chain' R l) : List.Chain' R (dropTrail l) := by
  obtain ⟨s, hs, _⟩ := dropTrail_spec l
  exact chain'_append_left (hs ▸ h)

theorem chain'_trimBoth {R : Char → Char → Prop} {l : List Char}
    (h : List.Chain' R l) : List.Chain' R (trimBoth l) :=
  chain'_dropTrail (chain'_dropWhile isWsChar h)

theorem takeWhile_ws_length_le_one (l : List Char) (hch : List.Chain' noTwoSp l)
    (hws : ∀ x ∈ l, isWsChar x = true → x = ' ') :
    (l.takeWhile isWsChar).length ≤ 1 := by
  cases htw : l.takeWhile isWsChar with
  | nil => simp
  | cons a t =>
    cases t with
    | nil => simp
    | cons b t' =>
      exfalso
      have hma : a ∈ l.takeWhile isWsChar := by rw [htw]; simp
      have hmb : b ∈ l.takeWhile isWsChar := by rw [htw]; simp
      have hwa : isWsChar a := List.mem_takeWhile_imp hma
      have hwb : isWsChar b := List.mem_takeWhile_imp hmb
      have hsa : a = ' ' := hws a ((List.takeWhile_prefix isWsChar).subset hma) hwa
      have hsb : b = ' ' := hws b ((List.takeWhile_prefix isWsChar).subset hmb) hwb
      have hchtw : List.Chain' noTwoSp (a :: b :: t') := by
        rw [← htw]
        obtain ⟨t2, ht2⟩ := List.takeWhile_prefix (l := l) isWsChar
        exact chain'_append_left (ht2 ▸ hch)
      have := (List.chain'_cons.mp hchtw).1
      exact this ⟨hsa, hsb⟩

theorem length_le_dropTrail_add_one (l : List Char) (hch : List.Chain' noTwoSp l)
    (hws : ∀ x ∈ l, isWsChar x = true → x = ' ') :
    l.length ≤ (dropTrail l).length + 1 := by
  obtain ⟨s, hs, hsws⟩ := dropTrail_spec l
  have hslen : s.length ≤ 1 := by
    cases hse : s with
    | nil => simp
    | cons a t =>
      cases t with
      | nil => simp
      | cons b t' =>
        exfalso
        subst hse
        have hma : a ∈ l := by rw [hs]; simp
        have hmb : b ∈ l := by rw [hs]; simp
        have hsa : a = ' ' := hws a hma (hsws a (by simp))
        have hsb : b = ' ' := hws b hmb (hsws b (by simp))
        have hchs : List.Chain' noTwoSp (a :: b :: t') := chain'_append_right (hs ▸ hch)
        exact (List.chain'_cons.mp hchs).1 ⟨hsa, hsb⟩
  have hlen : l.length = (dropTrail l).length + s.length := by
    have := congrArg List.length hs
    simp only [List.length_append] at this
    exact this
  omega

theorem length_le_trimBoth_add_two (l : List Char) (hch : List.Chain' noTwoSp l)
    (hws : ∀ x ∈ l, isWsChar x = true → x = ' ') :
    l.length ≤ (trimBoth l).length + 2 := by
  have h1 : (l.takeWhile isWsChar).length ≤ 1 := takeWhile_ws_length_le_one l hch hws
  have hsplit : l.takeWhile isWsChar ++ l.dropWhile isWsChar = l :=
    List.takeWhile_append_dropWhile isWsChar l
  have hlen : l.length = (l.takeWhile isWsChar).length + (l.dropWhile isWsChar).length := by
    have := congrArg List.length hsplit
    simp only [List.length_append] at this
    omega
  have hchd : List.Chain' noTwoSp (l.dropWhile isWsChar) := chain'_dropWhile isWsChar hch
  have hwsd : ∀ x ∈ l.dropWhile isWsChar, isWsChar x = true → x = ' ' :=
    fun x hx => hws x ((List.dropWhile_sublist isWsChar).subset hx)
  have h2 := length_le_dropTrail_add_one _ hchd hwsd
  unfold trimBoth
  omega

/-! ### Substring search lemmas -/

theorem startsWithL_length {a b : List Char} (h : startsWithL a b = true) :
    b.length ≤ a.length := by
  induction b generalizing a with
  | nil => simp
  | cons x xs ih =>
    cases a with
    | nil => simp [startsWithL] at h
    | cons y ys =>
      simp only [startsWithL, Bool.and_eq_true] at h
      have := ih h.2
      simp only [List.length_cons]
      omega

theorem indexOfAux_lt {n : List Char} (hne : n ≠ []) :
    ∀ (h : List Char) (k j : Nat), indexOfAux n h k = some j → j < k + h.length := by
  intro h
  induction h with
  | nil =>
    intro k j hj
    simp [indexOfAux, hne] at hj
  | cons c t ih =>
    intro k j hj
    simp only [indexOfAux] at hj
    split at hj
    · next hsw =>
      cases n with
      | nil => exact absurd rfl hne
      | cons x xs =>
        simp only [Option.some.injEq] at hj
        subst hj
        simp only [List.length_cons]
        omega
    · have := ih (k + 1) j hj
      simp only [List.length_cons]
      omega

theorem indexOfL_lt {h n : List Char} (hne : n ≠ []) {j : Nat}
    (hj : indexOfL h n = some j) : j < h.length := by
  have := indexOfAux_lt hne h 0 j hj
  omega

theorem includesL_exists {h n : List Char} (hi : includesL h n = true) :
    ∃ j, indexOfL h n = some j := by
  unfold includesL at hi
  exact Option.isSome_iff_exists.mp hi

theorem includesL_false_none {h n : List Char} (hi : includesL h n = false) :
    indexOfL h n = none := by
  unfold includesL at hi
  cases he : indexOfL h n with
  | none => rfl
  | some j => rw [he] at hi; simp at hi

/-! ### Properties of the normalization loop -/

theorem normLoop_cons_ws_t (c : Char) (rest : List Char) (i : Nat)
    (hc : isWsChar c = true) :
    normLoop (c :: rest) i true = normLoop rest (i + 1) true := by
  simp [normLoop, hc]

theorem normLoop_cons_ws_f (c : Char) (rest : List Char) (i : Nat)
    (hc : isWsChar c = true) :
    normLoop (c :: rest) i false =
      (' ' :: (normLoop rest (i + 1) true).1, i :: (normLoop rest (i + 1) true).2) := by
  simp [normLoop, hc]

theorem normLoop_cons_nws (c : Char) (rest : List Char) (i : Nat) (b : Bool)
    (hc : isWsChar c = false) :
    normLoop (c :: rest) i b =
      ((mapQuoteChar c).toLower :: (normLoop rest (i + 1) false).1,
        i :: (normLoop rest (i + 1) false).2) := by
  simp [normLoop, hc]

theorem normLoop_lengths (t : List Char) :
    ∀ i b, (normLoop t i b).1.length = (normLoop t i b).2.length := by
  induction t with
  | nil => intro i b; rfl
  | cons c rest ih =>
    intro i b
    by_cases hc : isWsChar c
    · cases b with
      | true => rw [normLoop_cons_ws_t c rest i hc]; exact ih (i + 1) true
      | false =>
        rw [normLoop_cons_ws_f c rest i hc]
        simp only [List.length_cons]
        rw [ih (i + 1) true]
    · rw [normLoop_cons_nws c rest i b (by simpa using hc)]
      simp only [List.length_cons]
      rw [ih (i + 1) false]

theorem normLoop_mem_bounds (t : List Char) :
    ∀ i b m, m ∈ (normLoop t i b).2 → i ≤ m ∧ m < i + t.length := by
  induction t with
  | nil => intro i b m hm; simp [normLoop] at hm
  | cons c rest ih =>
    intro i b m hm
    by_cases hc : isWsChar c
    · cases b with
      | true =>
        rw [normLoop_cons_ws_t c rest i hc] at hm
        have := ih (i + 1) true m hm
        simp only [List.length_cons]
        omega
      | false =>
        rw [normLoop_cons_ws_f c rest i hc] at hm
        rcases List.mem_cons.mp hm with h | h
        · subst h; simp only [List.length_cons]; omega
        · have := ih (i + 1) true m h
          simp only [List.length_cons]
          omega
    · rw [normLoop_cons_nws c rest i b (by simpa using hc)] at hm
      rcases List.mem_cons.mp hm with h | h
      · subst h; simp only [List.length_cons]; omega
      · have := ih (i + 1) false m h
        simp only [List.length_cons]
        omega

theorem normLoop_chain_lt (t : List Char) :
    ∀ i b, List.Chain' (fun a b => a < b) (normLoop t i b).2 := by
  induction t with
  | nil => intro i b; simp [normLoop]
  | cons c rest ih =>
    intro i b
    by_cases hc : isWsChar c
    · cases b with
      | true => rw [normLoop_cons_ws_t c rest i hc]; exact ih (i + 1) true
      | false =>
        rw [normLoop_cons_ws_f c rest i hc]
        refine List.chain'_cons'.mpr ⟨?_, ih (i + 1) true⟩
        intro y hy
        have hmem : y ∈ (normLoop rest (i + 1) true).2 := List.mem_of_mem_head? hy
        have := normLoop_mem_bounds rest (i + 1) true y hmem
        omega
    · rw [normLoop_cons_nws c rest i b (by simpa using hc)]
      refine List.chain'_cons'.mpr ⟨?_, ih (i + 1) false⟩
      intro y hy
      have hmem : y ∈ (normLoop rest (i + 1) false).2 := List.mem_of_mem_head? hy
      have := normLoop_mem_bounds rest (i + 1) false y hmem
      omega

theorem normLoop_corr (t : List Char) :
    ∀ (i : Nat) (b : Bool) (j m : Nat), (normLoop t i b).2[j]? = some m →
      ∃ c, t[m - i]? = some c ∧ i ≤ m ∧ (normLoop t i b).1[j]? = some (normCharOf c) := by
  induction t with
  | nil => intro i b j m hm; simp [normLoop] at hm
  | cons c rest ih =>
    intro i b j m hm
    by_cases hc : isWsChar c
    · cases b with
      | true =>
        rw [normLoop_cons_ws_t c rest i hc] at hm
        rw [normLoop_cons_ws_t c rest i hc]
        obtain ⟨c', hc', him, hn⟩ := ih (i + 1) true j m hm
        refine ⟨c', ?_, by omega, hn⟩
        have hmi : m - i = (m - (i + 1)) + 1 := by omega
        rw [hmi, List.getElem?_cons_succ]
        exact hc'
      | false =>
        rw [normLoop_cons_ws_f c rest i hc] at hm
        rw [normLoop_cons_ws_f c rest i hc]
        cases j with
        | zero =>
          simp only [List.getElem?_cons_zero, Option.some.injEq] at hm
          subst hm
          refine ⟨c, by simp, le_refl _, ?_⟩
          simp only [List.getElem?_cons_zero, Option.some.injEq]
          unfold normCharOf
          rw [if_pos hc]
        | succ j' =>
          simp only [List.getElem?_cons_succ] at hm
          obtain ⟨c', hc', him, hn⟩ := ih (i + 1) true j' m hm
          refine ⟨c', ?_, by omega, ?_⟩
          · have hmi : m - i = (m - (i + 1)) + 1 := by omega
            rw [hmi, List.getElem?_cons_succ]
            exact hc'
          · simp only [List.getElem?_cons_succ]
            exact hn
    · have hcf : isWsChar c = false := by simpa using hc
      rw [normLoop_cons_nws c rest i b hcf] at hm
      rw [normLoop_cons_nws c rest i b hcf]
      cases j with
      | zero =>
        simp only [List.getElem?_cons_zero, Option.some.injEq] at hm
        subst hm
        refine ⟨c, by simp, le_refl _, ?_⟩
        simp only [List.getElem?_cons_zero, Option.some.injEq]
        unfold normCharOf
        rw [if_neg (by simp [hcf])]
      | succ j' =>
        simp only [List.getElem?_cons_succ] at hm
        obtain ⟨c', hc', him, hn⟩ := ih (i + 1) false j' m hm
        refine ⟨c', ?_, by omega, ?_⟩
        · have hmi : m - i = (m - (i + 1)) + 1 := by omega
          rw [hmi, List.getElem?_cons_succ]
          exact hc'
        · simp only [List.getElem?_cons_succ]
          exact hn

theorem normLoop_all_ws_space (t : List Char) :
    ∀ i b x, x ∈ (normLoop t i b).1 → isWsChar x = true → x = ' ' := by
  induction t with
  | nil => intro i b x hx; simp [normLoop] at hx
  | cons c rest ih =>
    intro i b x hx hws
    by_cases hc : isWsChar c
    · cases b with
      | true =>
        rw [normLoop_cons_ws_t c rest i hc] at hx
        exact ih (i + 1) true x hx hws
      | false =>
        rw [normLoop_cons_ws_f c rest i hc] at hx
        rcases List.mem_cons.mp hx with h | h
        · exact h
        · exact ih (i + 1) true x h hws
    · have hcf : isWsChar c = false := by simpa using hc
      rw [normLoop_cons_nws c rest i b hcf] at hx
      rcases List.mem_cons.mp hx with h | h
      · exfalso
        have hne : isWsChar ((mapQuoteChar c).toLower) = false := by
          rw [isWs_toLower, isWs_mapQuote, hcf]
        rw [h] at hws
        rw [hne] at hws
        simp at hws
      · exact ih (i + 1) false x h hws

theorem normLoop_chain_sp (t : List Char) :
    ∀ i b, List.Chain' noTwoSp (normLoop t i b).1 ∧
      (b = true → ∀ x, (normLoop t i b).1.head? = some x → x ≠ ' ') := by
  induction t with
  | nil =>
    intro i b
    refine ⟨by simp [normLoop], ?_⟩
    intro _ x hx
    simp [normLoop] at hx
  | cons c rest ih =>
    intro i b
    by_cases hc : isWsChar c
    · cases b with
      | true =>
        rw [normLoop_cons_ws_t c rest i hc]
        exact ih (i + 1) true
      | false =>
        rw [normLoop_cons_ws_f c rest i hc]
        constructor
        · refine List.chain'_cons'.mpr ⟨?_, (ih (i + 1) true).1⟩
          intro y hy
          have hne := (ih (i + 1) true).2 rfl y hy
          intro ⟨_, hy'⟩
          exact hne hy'
        · intro hb
          exact absurd hb (by simp)
    · have hcf : isWsChar c = false := by simpa using hc
      rw [normLoop_cons_nws c rest i b hcf]
      have hch : (mapQuoteChar c).toLower ≠ ' ' := by
        intro he
        have hne : isWsChar ((mapQuoteChar c).toLower) = false := by
          rw [isWs_toLower, isWs_mapQuote, hcf]
        rw [he] at hne
        exact absurd hne (by decide)
      constructor
      · refine List.chain'_cons'.mpr ⟨?_, (ih (i + 1) false).1⟩
        intro y hy
        intro ⟨hx', _⟩
        exact hch hx'
      · intro _ x hx
        simp only [List.head?_cons, Option.some.injEq] at hx
        rw [← hx]
        exact hch

/-- The pre-trim normalized text and map of a string. -/
def normPre (t : List Char) : List Char × List Nat :=
  normLoop t 0 false

theorem trimBoth_subset (l : List Char) : trimBoth l ⊆ l := by
  intro x hx
  obtain ⟨s, hs, _⟩ := dropTrail_spec (l.dropWhile isWsChar)
  have h1 : x ∈ l.dropWhile isWsChar := by
    rw [hs]
    exact List.mem_append_left _ hx
  exact (List.dropWhile_sublist isWsChar).subset h1

theorem normSearch_chain_sp (a : List Char) :
    List.Chain' noTwoSp (normalizeForFuzzySearch a) := by
  unfold normalizeForFuzzySearch normalizeForFuzzyIndexing
  exact chain'_trimBoth (normLoop_chain_sp a 0 false).1

theorem normSearch_ws_space (a : List Char) :
    ∀ x ∈ normalizeForFuzzySearch a, isWsChar x = true → x = ' ' := by
  intro x hx hws
  have hx' : x ∈ (normLoop a 0 false).1 := by
    unfold normalizeForFuzzySearch normalizeForFuzzyIndexing at hx
    exact trimBoth_subset _ hx
  exact normLoop_all_ws_space a 0 false x hx' hws

theorem normSearch_trim_self (a : List Char) :
    trimBoth (normalizeForFuzzySearch a) = normalizeForFuzzySearch a := by
  unfold normalizeForFuzzySearch normalizeForFuzzyIndexing
  exact trimBoth_idem _

theorem normSearch_head_not_ws (a : List Char) :
    ∀ x, (normalizeForFuzzySearch a).head? = some x → isWsChar x = false := by
  intro x hx
  unfold normalizeForFuzzySearch normalizeForFuzzyIndexing at hx
  exact trimBoth_head_not_ws _ x hx

/-! ### The normalized-anchor-head (pfx) lemmas -/

theorem pfx_short_eq_self {a : List Char} (h : (normalizeForFuzzySearch a).length ≤ 80) :
    trimBoth ((normalizeForFuzzySearch a).take 80) = normalizeForFuzzySearch a := by
  rw [List.take_of_length_le h]
  exact normSearch_trim_self a

theorem pfx_long_length {a : List Char} (h : 80 < (normalizeForFuzzySearch a).length) :
    79 ≤ (trimBoth ((normalizeForFuzzySearch a).take 80)).length := by
  have htl : ((normalizeForFuzzySearch a).take 80).length = 80 := by
    rw [List.length_take]
    omega
  have hhead : ∀ x, ((normalizeForFuzzySearch a).take 80).head? = some x →
      isWsChar x = false := by
    intro x hx
    apply normSearch_head_not_ws a x
    cases hn : normalizeForFuzzySearch a with
    | nil => rw [hn] at h; simp at h
    | cons y ys =>
      rw [hn] at hx
      rw [show (80 : Nat) = 79 + 1 from rfl, List.take_succ_cons] at hx
      simp only [List.head?_cons, Option.some.injEq] at hx
      simp [hx]
  have hdw : ((normalizeForFuzzySearch a).take 80).dropWhile isWsChar =
      (normalizeForFuzzySearch a).take 80 :=
    dropWhile_eq_self_of_head _ _ hhead
  have hch : List.Chain' noTwoSp ((normalizeForFuzzySearch a).take 80) :=
    (normSearch_chain_sp a).take 80
  have hws : ∀ x ∈ (normalizeForFuzzySearch a).take 80, isWsChar x = true → x = ' ' :=
    fun x hx => normSearch_ws_space a x ((List.take_sublist _ _).subset hx)
  have hlen := length_le_dropTrail_add_one _ hch hws
  unfold trimBoth
  rw [hdw]
  omega

/-- The normalized paragraph is never longer than its index map (the map is
built before the trim; the trim only shortens). -/
theorem normPara_length_le_map (t : List Char) :
    (normalizeForFuzzyIndexing t).1.length ≤ (normalizeForFuzzyIndexing t).2.length := by
  unfold normalizeForFuzzyIndexing
  have h1 := trimBoth_length_le (normLoop t 0 false).1
  have h2 := normLoop_lengths t 0 false
  simp only []
  omega

/-! ### Stage lemmas for the position search -/

theorem findApprox_empty_anchor (pr : List Char → List Char → Nat)
    (t a : List Char) (h : normalizeForFuzzySearch a = []) :
    findApproxMatchStartIndex pr t a = none := by
  unfold findApproxMatchStartIndex
  rw [if_pos h]

theorem findApprox_substring (pr : List Char → List Char → Nat) (t a : List Char)
    (hne : normalizeForFuzzySearch a ≠ [])
    (hinc : includesL (normalizeForFuzzyIndexing t).1 (normalizeForFuzzySearch a) = true) :
    ∃ j v, indexOfL (normalizeForFuzzyIndexing t).1 (normalizeForFuzzySearch a) = some j ∧
      (normalizeForFuzzyIndexing t).2[j]? = some v ∧
      findApproxMatchStartIndex pr t a = some v := by
  obtain ⟨j, hj⟩ := includesL_exists hinc
  have hjlt : j < (normalizeForFuzzyIndexing t).1.length := indexOfL_lt hne hj
  have hjmap : j < (normalizeForFuzzyIndexing t).2.length :=
    lt_of_lt_of_le hjlt (normPara_length_le_map t)
  refine ⟨j, (normalizeForFuzzyIndexing t).2[j], hj, List.getElem?_eq_getElem hjmap, ?_⟩
  unfold findApproxMatchStartIndex
  rw [if_neg hne, hj]
  exact List.getElem?_eq_getElem hjmap

theorem findApprox_pfx (pr : List Char → List Char → Nat) (t a : List Char)
    (hne : normalizeForFuzzySearch a ≠ [])
    (hninc : includesL (normalizeForFuzzyIndexing t).1 (normalizeForFuzzySearch a) = false)
    (hlen : 12 ≤ (trimBoth ((normalizeForFuzzySearch a).take 80)).length)
    (hpinc : includesL (normalizeForFuzzyIndexing t).1
      (trimBoth ((normalizeForFuzzySearch a).take 80)) = true) :
    ∃ j v, indexOfL (normalizeForFuzzyIndexing t).1
        (trimBoth ((normalizeForFuzzySearch a).take 80)) = some j ∧
      (normalizeForFuzzyIndexing t).2[j]? = some v ∧
      findApproxMatchStartIndex pr t a = some v := by
  obtain ⟨j, hj⟩ := includesL_exists hpinc
  have hpne : trimBoth ((normalizeForFuzzySearch a).take 80) ≠ [] := by
    intro he
    rw [he] at hlen
    simp at hlen
  have hjlt : j < (normalizeForFuzzyIndexing t).1.length := indexOfL_lt hpne hj
  have hjmap : j < (normalizeForFuzzyIndexing t).2.length :=
    lt_of_lt_of_le hjlt (normPara_length_le_map t)
  refine ⟨j, (normalizeForFuzzyIndexing t).2[j], hj, List.getElem?_eq_getElem hjmap, ?_⟩
  unfold findApproxMatchStartIndex
  rw [if_neg hne, includesL_false_none hninc]
  simp only [if_pos hlen, hj]
  exact List.getElem?_eq_getElem hjmap

theorem findApprox_fuzzy (pr : List Char → List Char → Nat) (t a : List Char)
    (hne : normalizeForFuzzySearch a ≠ [])
    (hninc : includesL (normalizeForFuzzyIndexing t).1 (normalizeForFuzzySearch a) = false)
    (hpfail : ¬(trimBoth ((normalizeForFuzzySearch a).take 80) ≠ [] ∧
      includesL (normalizeForFuzzyIndexing t).1
        (trimBoth ((normalizeForFuzzySearch a).take 80)) = true)) :
    findApproxMatchStartIndex pr t a =
      fuzzyStage pr (normalizeForFuzzyIndexing t).1 (normalizeForFuzzyIndexing t).2
        (normalizeForFuzzySearch a) := by
  unfold findApproxMatchStartIndex
  rw [if_neg hne, includesL_false_none hninc]
  by_cases hlen : 12 ≤ (trimBoth ((normalizeForFuzzySearch a).take 80)).length
  · have hpne : trimBoth ((normalizeForFuzzySearch a).take 80) ≠ [] := by
      intro he
      rw [he] at hlen
      simp at hlen
    have hnotinc : includesL (normalizeForFuzzyIndexing t).1
        (trimBoth ((normalizeForFuzzySearch a).take 80)) = false := by
      cases hi : includesL (normalizeForFuzzyIndexing t).1
          (trimBoth ((normalizeForFuzzySearch a).take 80)) with
      | false => rfl
      | true => exact absurd ⟨hpne, hi⟩ hpfail
    simp only [if_pos hlen, includesL_false_none hnotinc]
  · simp only [if_neg hlen]

/-- If the outer loop's pfx test fires while the direct normalized-substring
test failed, the pfx is at least 12 characters long (in fact at least 79: the
anchor must normalize to more than 80 characters, else its 80-character head
is the whole anchor). -/
theorem pfx_hit_length (t a : List Char)
    (hsub : ¬(normalizeForFuzzySearch a ≠ [] ∧
      includesL (normalizeForFuzzyIndexing t).1 (normalizeForFuzzySearch a) = true))
    (hpne : trimBoth ((normalizeForFuzzySearch a).take 80) ≠ [])
    (hpinc : includesL (normalizeForFuzzyIndexing t).1
      (trimBoth ((normalizeForFuzzySearch a).take 80)) = true) :
    12 ≤ (trimBoth ((normalizeForFuzzySearch a).take 80)).length := by
  have hne : normalizeForFuzzySearch a ≠ [] := by
    intro he
    apply hpne
    rw [he]
    rfl
  by_cases hlen : (normalizeForFuzzySearch a).length ≤ 80
  · exfalso
    rw [pfx_short_eq_self hlen] at hpinc
    exact hsub ⟨hne, hpinc⟩
  · have := pfx_long_length (a := a) (by omega)
    omega

/-! ### Branch lemmas for `locateStart` -/

theorem locateStart_substring_case (pr : List Char → List Char → Nat) (t a : List Char)
    (hsub : normalizeForFuzzySearch a ≠ [] ∧
      includesL (normalizeForFuzzyIndexing t).1 (normalizeForFuzzySearch a) = true) :
    locateStart pr t a = ("substring", findApproxMatchStartIndex pr t a) ∧
      ∃ v, findApproxMatchStartIndex pr t a = some v := by
  constructor
  · unfold locateStart
    rw [if_pos hsub]
  · obtain ⟨j, v, _, _, hv⟩ := findApprox_substring pr t a hsub.1 hsub.2
    exact ⟨v, hv⟩

theorem locateStart_pfx_case (pr : List Char → List Char → Nat) (t a : List Char)
    (hsub : ¬(normalizeForFuzzySearch a ≠ [] ∧
      includesL (normalizeForFuzzyIndexing t).1 (normalizeForFuzzySearch a) = true))
    (hp : trimBoth ((normalizeForFuzzySearch a).take 80) ≠ [] ∧
      includesL (normalizeForFuzzyIndexing t).1
        (trimBoth ((normalizeForFuzzySearch a).take 80)) = true) :
    locateStart pr t a = ("prefix", findApproxMatchStartIndex pr t a) ∧
      ∃ v, findApproxMatchStartIndex pr t a = some v := by
  have hne : normalizeForFuzzySearch a ≠ [] := by
    intro he
    apply hp.1
    rw [he]
    rfl
  have hninc : includesL (normalizeForFuzzyIndexing t).1 (normalizeForFuzzySearch a) = false := by
    cases hi : includesL (normalizeForFuzzyIndexing t).1 (normalizeForFuzzySearch a) with
    | false => rfl
    | true => exact absurd ⟨hne, hi⟩ hsub
  constructor
  · unfold locateStart
    rw [if_neg hsub]
    simp only [if_pos hne]
    rw [if_pos hp]
  · have hlen := pfx_hit_length t a hsub hp.1 hp.2
    obtain ⟨j, v, _, _, hv⟩ := findApprox_pfx pr t a hne hninc hlen hp.2
    exact ⟨v, hv⟩

theorem locateStart_empty_case (pr : List Char → List Char → Nat) (t a : List Char)
    (hne : normalizeForFuzzySearch a = []) :
    locateStart pr t a = ("none", none) := by
  unfold locateStart
  rw [if_neg (by intro h; exact h.1 hne)]
  have hp : ¬((if normalizeForFuzzySearch a ≠ [] then
      trimBoth ((normalizeForFuzzySearch a).take 80) else []) ≠ [] ∧
      includesL (normalizeForFuzzyIndexing t).1
        (if normalizeForFuzzySearch a ≠ [] then
          trimBoth ((normalizeForFuzzySearch a).take 80) else []) = true) := by
    rw [if_neg (by intro h; exact h hne)]
    intro h
    exact h.1 rfl
  rw [if_neg hp]
  rw [findApprox_empty_anchor pr t a hne]

theorem locateStart_fuzzy_case (pr : List Char → List Char → Nat) (t a : List Char)
    (hne : normalizeForFuzzySearch a ≠ [])
    (hsub : ¬(normalizeForFuzzySearch a ≠ [] ∧
      includesL (normalizeForFuzzyIndexing t).1 (normalizeForFuzzySearch a) = true))
    (hp : ¬(trimBoth ((normalizeForFuzzySearch a).take 80) ≠ [] ∧
      includesL (normalizeForFuzzyIndexing t).1
        (trimBoth ((normalizeForFuzzySearch a).take 80)) = true)) :
    locateStart pr t a =
      (match fuzzyStage pr (normalizeForFuzzyIndexing t).1 (normalizeForFuzzyIndexing t).2
          (normalizeForFuzzySearch a) with
        | some v => ("fuzzy", some v)
        | none => ("none", none)) := by
  have hninc : includesL (normalizeForFuzzyIndexing t).1 (normalizeForFuzzySearch a) = false := by
    cases hi : includesL (normalizeForFuzzyIndexing t).1 (normalizeForFuzzySearch a) with
    | false => rfl
    | true => exact absurd ⟨hne, hi⟩ hsub
  unfold locateStart
  rw [if_neg hsub]
  simp only [if_pos hne]
  rw [if_neg hp]
  rw [findApprox_fuzzy pr t a hne hninc hp]


/-- The position search never reports a method with an inconsistent offset:
the offset is `none` exactly in the `"none"` case. -/
theorem locateStart_none_iff (pr : List Char → List Char → Nat) (t a : List Char) :
    ((locateStart pr t a).2 = none ↔ (locateStart pr t a).1 = "none") := by
  by_cases hsub : normalizeForFuzzySearch a ≠ [] ∧
      includesL (normalizeForFuzzyIndexing t).1 (normalizeForFuzzySearch a) = true
  · obtain ⟨heq, v, hv⟩ := locateStart_substring_case pr t a hsub
    rw [heq]
    simp only [hv]
    constructor
    · intro h; simp at h
    · intro h; simp at h
  · by_cases hp : trimBoth ((normalizeForFuzzySearch a).take 80) ≠ [] ∧
        includesL (normalizeForFuzzyIndexing t).1
          (trimBoth ((normalizeForFuzzySearch a).take 80)) = true
    · obtain ⟨heq, v, hv⟩ := locateStart_pfx_case pr t a hsub hp
      rw [heq]
      simp only [hv]
      constructor
      · intro h; simp at h
      · intro h; simp at h
    · by_cases hne : normalizeForFuzzySearch a = []
      · rw [locateStart_empty_case pr t a hne]
        simp
      · rw [locateStart_fuzzy_case pr t a hne hsub hp]
        cases fuzzyStage pr (normalizeForFuzzyIndexing t).1 (normalizeForFuzzyIndexing t).2
            (normalizeForFuzzySearch a) with
        | some v =>
          constructor
          · intro h; simp at h
          · intro h; simp at h
        | none => simp

/-! ### Lemmas about the fuzzy window scan -/

theorem scanWindowLen_eq (nA : List Char) :
    scanWindowLen nA = max (min nA.length 220) 80 := by
  unfold scanWindowLen scanNeedleOf
  by_cases h : 220 < nA.length
  · rw [if_pos h, List.length_take]
    omega
  · rw [if_neg h]
    omega

theorem scanWindowLen_pos (nA : List Char) : 0 < scanWindowLen nA := by
  rw [scanWindowLen_eq]
  omega

theorem windowAt_ne_nil {nP : List Char} {wl pos : Nat} (hpos : pos < nP.length)
    (hwl : 0 < wl) : windowAt nP wl pos ≠ [] := by
  unfold windowAt
  intro he
  have := congrArg List.length he
  simp only [List.length_take, List.length_drop, List.length_nil] at this
  omega

theorem windowAt_nil_of_ge {nP : List Char} {wl pos : Nat} (hpos : nP.length ≤ pos) :
    windowAt nP wl pos = [] := by
  unfold windowAt
  rw [List.drop_eq_nil_of_le hpos]
  simp

theorem mem_scanPositions (L pos : Nat) :
    pos ∈ scanPositions L ↔ pos % 5 = 0 ∧ pos ≤ L - 1 := by
  unfold scanPositions
  rw [List.mem_range']
  constructor
  · rintro ⟨i, hi, rfl⟩
    omega
  · rintro ⟨hmod, hle⟩
    exact ⟨pos / 5, by omega, by omega⟩

theorem scanGo_lt60_iff (pr : List Char → List Char → Nat) (nP sn : List Char) (wl : Nat)
    (ps : List Nat) (hw : ∀ p ∈ ps, windowAt nP wl p ≠ []) :
    ∀ b : Nat × Int, ((scanGo pr nP sn wl ps b).1 < 60 ↔
      (b.1 < 60 ∧ ∀ p ∈ ps, pr sn (windowAt nP wl p) < 60)) := by
  induction ps with
  | nil => intro b; simp [scanGo]
  | cons p rest ih =>
    intro b
    have hwp : windowAt nP wl p ≠ [] := hw p (by simp)
    have hwr : ∀ q ∈ rest, windowAt nP wl q ≠ [] := fun q hq => hw q (by simp [hq])
    simp only [scanGo, if_neg hwp]
    by_cases himp : b.1 < pr sn (windowAt nP wl p)
    · rw [if_pos himp]
      by_cases h98 : 98 ≤ pr sn (windowAt nP wl p)
      · rw [if_pos h98]
        simp only [List.mem_cons]
        constructor
        · intro h; omega
        · rintro ⟨-, hall⟩
          have := hall p (Or.inl rfl)
          omega
      · rw [if_neg h98]
        rw [ih hwr (pr sn (windowAt nP wl p), (p : Int))]
        simp only [List.mem_cons]
        constructor
        · rintro ⟨hlt, hall⟩
          refine ⟨by omega, ?_⟩
          rintro q (rfl | hq)
          · exact hlt
          · exact hall q hq
        · rintro ⟨hb, hall⟩
          exact ⟨hall p (Or.inl rfl), fun q hq => hall q (Or.inr hq)⟩
    · rw [if_neg himp]
      rw [ih hwr b]
      simp only [List.mem_cons]
      constructor
      · rintro ⟨hb, hall⟩
        refine ⟨hb, ?_⟩
        rintro q (rfl | hq)
        · omega
        · exact hall q hq
      · rintro ⟨hb, hall⟩
        exact ⟨hb, fun q hq => hall q (Or.inr hq)⟩

theorem scanGo_provenance (pr : List Char → List Char → Nat) (nP sn : List Char) (wl : Nat)
    (ps : List Nat) :
    ∀ b : Nat × Int, scanGo pr nP sn wl ps b = b ∨
      ∃ p ∈ ps, windowAt nP wl p ≠ [] ∧
        scanGo pr nP sn wl ps b = (pr sn (windowAt nP wl p), (p : Int)) := by
  induction ps with
  | nil => intro b; left; rfl
  | cons p rest ih =>
    intro b
    by_cases hwp : windowAt nP wl p = []
    · left; simp [scanGo, hwp]
    · simp only [scanGo, if_neg hwp]
      by_cases himp : b.1 < pr sn (windowAt nP wl p)
      · rw [if_pos himp]
        by_cases h98 : 98 ≤ pr sn (windowAt nP wl p)
        · rw [if_pos h98]
          right
          exact ⟨p, by simp, hwp, rfl⟩
        · rw [if_neg h98]
          rcases ih (pr sn (windowAt nP wl p), (p : Int)) with h | ⟨q, hq, hwq, h⟩
          · right; exact ⟨p, by simp, hwp, h⟩
          · right; exact ⟨q, by simp [hq], hwq, h⟩
      · rw [if_neg himp]
        rcases ih b with h | ⟨q, hq, hwq, h⟩
        · left; exact h
        · right; exact ⟨q, by simp [hq], hwq, h⟩

theorem scanGo_head_98 (pr : List Char → List Char → Nat) (nP sn : List Char) (wl : Nat)
    (p : Nat) (ps : List Nat) (b : Nat × Int) (hw : windowAt nP wl p ≠ [])
    (hb : b.1 < pr sn (windowAt nP wl p)) (h98 : 98 ≤ pr sn (windowAt nP wl p)) :
    scanGo pr nP sn wl (p :: ps) b = (pr sn (windowAt nP wl p), (p : Int)) := by
  simp only [scanGo, if_neg hw, if_pos hb, if_pos h98]

theorem fuzzyStage_def (pr : List Char → List Char → Nat) (nP : List Char)
    (map : List Nat) (nA : List Char) :
    fuzzyStage pr nP map nA =
      if 0 ≤ (scanGo pr nP (scanNeedleOf nA) (scanWindowLen nA)
            (scanPositions nP.length) (0, -1)).2 ∧
          60 ≤ (scanGo pr nP (scanNeedleOf nA) (scanWindowLen nA)
            (scanPositions nP.length) (0, -1)).1
      then map[(scanGo pr nP (scanNeedleOf nA) (scanWindowLen nA)
            (scanPositions nP.length) (0, -1)).2.toNat]?
      else none := rfl

theorem fuzzyStage_none_iff (pr : List Char → List Char → Nat) (nP : List Char)
    (map : List Nat) (nA : List Char) (hmap : nP.length ≤ map.length) :
    fuzzyStage pr nP map nA = none ↔
      ∀ pos, pos % 5 = 0 → pos < nP.length →
        pr (scanNeedleOf nA) (windowAt nP (scanWindowLen nA) pos) < 60 := by
  rw [fuzzyStage_def]
  by_cases hL : nP.length = 0
  · constructor
    · intro _ pos _ hpos
      omega
    · intro _
      unfold scanPositions
      rw [hL]
      have h0 : windowAt nP (scanWindowLen nA) 0 = [] := windowAt_nil_of_ge (by omega)
      simp [scanGo, h0]
  · have hLpos : 0 < nP.length := by omega
    have hw : ∀ p ∈ scanPositions nP.length, windowAt nP (scanWindowLen nA) p ≠ [] := by
      intro p hp
      have := (mem_scanPositions nP.length p).mp hp
      exact windowAt_ne_nil (by omega) (scanWindowLen_pos nA)
    set best := scanGo pr nP (scanNeedleOf nA) (scanWindowLen nA)
      (scanPositions nP.length) (0, -1) with hbest
    have hiff := scanGo_lt60_iff pr nP (scanNeedleOf nA) (scanWindowLen nA)
      (scanPositions nP.length) hw (0, -1)
    have hprov := scanGo_provenance pr nP (scanNeedleOf nA) (scanWindowLen nA)
      (scanPositions nP.length) (0, -1)
    rw [← hbest] at hiff hprov
    constructor
    · intro hnone pos hmod hpos
      have hbs : best.1 < 60 := by
        by_contra hge
        push_neg at hge
        have hbp : 0 ≤ best.2 := by
          rcases hprov with h | ⟨p, hp, hwp, h⟩
          · rw [h] at hge; simp at hge
          · rw [h]; simp
        rw [if_pos ⟨hbp, hge⟩] at hnone
        have hlt : best.2.toNat < map.length := by
          rcases hprov with h | ⟨p, hp, hwp, h⟩
          · rw [h] at hge; simp at hge
          · have := (mem_scanPositions nP.length p).mp hp
            rw [h]
            simp only [Int.toNat_ofNat]
            omega
        rw [List.getElem?_eq_getElem hlt] at hnone
        simp at hnone
      have hall := (hiff.mp hbs).2
      exact hall pos ((mem_scanPositions nP.length pos).mpr ⟨hmod, by omega⟩)
    · intro hall
      have hbs : best.1 < 60 := by
        rw [hiff]
        refine ⟨by omega, ?_⟩
        intro p hp
        have := (mem_scanPositions nP.length p).mp hp
        exact hall p this.1 (by omega)
      rw [if_neg (by intro h; omega)]

theorem fuzzyStage_some_sound (pr : List Char → List Char → Nat) (nP : List Char)
    (map : List Nat) (nA : List Char) (o : Nat)
    (h : fuzzyStage pr nP map nA = some o) :
    ∃ pos, pos % 5 = 0 ∧ pos < nP.length ∧
      60 ≤ pr (scanNeedleOf nA) (windowAt nP (scanWindowLen nA) pos) ∧
      map[pos]? = some o := by
  rw [fuzzyStage_def] at h
  set best := scanGo pr nP (scanNeedleOf nA) (scanWindowLen nA)
    (scanPositions nP.length) (0, -1) with hbest
  have hprov := scanGo_provenance pr nP (scanNeedleOf nA) (scanWindowLen nA)
    (scanPositions nP.length) (0, -1)
  rw [← hbest] at hprov
  by_cases hcond : 0 ≤ best.2 ∧ 60 ≤ best.1
  · rw [if_pos hcond] at h
    rcases hprov with hb | ⟨p, hp, hwp, hb⟩
    · rw [hb] at hcond
      simp at hcond
    · have hmem := (mem_scanPositions nP.length p).mp hp
      have hplt : p < nP.length := by
        by_contra hge
        push_neg at hge
        exact hwp (windowAt_nil_of_ge hge)
      refine ⟨p, hmem.1, hplt, ?_, ?_⟩
      · rw [hb] at hcond
        exact hcond.2
      · rw [hb] at h
        simpa using h
  · rw [if_neg hcond] at h
    exact absurd h (by simp)

theorem fuzzyStage_early98 (pr : List Char → List Char → Nat) (nP : List Char)
    (map : List Nat) (nA : List Char) (hL : 0 < nP.length)
    (h98 : 98 ≤ pr (scanNeedleOf nA) (windowAt nP (scanWindowLen nA) 0)) :
    fuzzyStage pr nP map nA = map[0]? := by
  rw [fuzzyStage_def]
  have hps : scanPositions nP.length =
      0 :: List.range' 5 ((nP.length - 1) / 5) 5 := by
    unfold scanPositions
    rw [List.range'_succ]
  have hw0 : windowAt nP (scanWindowLen nA) 0 ≠ [] :=
    windowAt_ne_nil hL (scanWindowLen_pos nA)
  have hb0 : ((0 : Nat), (-1 : Int)).1 < pr (scanNeedleOf nA) (windowAt nP (scanWindowLen nA) 0) := by
    simp only []
    omega
  rw [hps, scanGo_head_98 pr nP (scanNeedleOf nA) (scanWindowLen nA) 0 _ (0, -1) hw0 hb0 h98]
  rw [if_pos ⟨by simp, by simp only []; omega⟩]
  simp
/-! ### Lemmas about anchor candidates and the insertion transform -/

/-- The length contribution of a candidate child to the cumulative walk:
`Math.max(1, nodeLen)` (source lines 578-579). -/
def max1Len (c : XNode) : Nat := max 1 (getChildTextLength c)

/-- Total walk length of a candidate list. -/
def spanSum (cs : List XNode) : Nat := (cs.map max1Len).sum

theorem spanSum_nil : spanSum [] = 0 := rfl

theorem spanSum_cons (c : XNode) (cs : List XNode) :
    spanSum (c :: cs) = max 1 (getChildTextLength c) + spanSum cs := by
  simp [spanSum, max1Len]

theorem insertAnchorAux_some (cid : Int) :
    ∀ (cs : List XNode) (k : Nat) (target : XNode),
      (cs.filter isAnchorCandidate)[k]? = some target →
      ∃ pre post,
        cs = pre ++ target :: post ∧
        (pre.filter isAnchorCandidate).length = k ∧
        insertAnchorAux cid cs k = some (pre ++ commentRangeStartNode cid ::
          target :: commentRangeEndNode cid ::
          createCommentReferenceRun cid :: post) := by
  intro cs
  induction cs with
  | nil => intro k target ht; simp at ht
  | cons c rest ih =>
    intro k target ht
    by_cases hc : isAnchorCandidate c
    · rw [List.filter_cons_of_pos hc] at ht
      cases k with
      | zero =>
        simp only [List.getElem?_cons_zero, Option.some.injEq] at ht
        subst ht
        refine ⟨[], rest, by simp, by simp, ?_⟩
        simp [insertAnchorAux, hc]
      | succ k' =>
        simp only [List.getElem?_cons_succ] at ht
        obtain ⟨pre, post, h1, h2, h3⟩ := ih k' target ht
        refine ⟨c :: pre, post, by simp [h1], ?_, ?_⟩
        · rw [List.filter_cons_of_pos hc]
          simp only [List.length_cons]
          omega
        · simp only [insertAnchorAux, hc, if_pos, h3]
          simp
    · rw [List.filter_cons_of_neg (by simp [hc])] at ht
      obtain ⟨pre, post, h1, h2, h3⟩ := ih k target ht
      refine ⟨c :: pre, post, by simp [h1], ?_, ?_⟩
      · rw [List.filter_cons_of_neg (by simp [hc])]
        exact h2
      · simp only [insertAnchorAux, hc]
        rw [if_neg (by simp), h3]
        simp

theorem insertAnchorAux_none (cid : Int) :
    ∀ (cs : List XNode) (k : Nat), (cs.filter isAnchorCandidate).length ≤ k →
      insertAnchorAux cid cs k = none := by
  intro cs
  induction cs with
  | nil => intro k _; rfl
  | cons c rest ih =>
    intro k hk
    by_cases hc : isAnchorCandidate c
    · rw [List.filter_cons_of_pos hc] at hk
      simp only [List.length_cons] at hk
      cases k with
      | zero => omega
      | succ k' =>
        simp only [insertAnchorAux, hc, if_pos]
        rw [ih k' (by omega)]
        rfl
    · rw [List.filter_cons_of_neg (by simp [hc])] at hk
      simp only [insertAnchorAux, hc]
      rw [if_neg (by simp)]
      rw [ih k hk]
      rfl

theorem findIdxAux_ge_total :
    ∀ (cs : List XNode) (i cursor offset : Nat), cursor + spanSum cs ≤ offset →
      findIdxAux offset cs i cursor = i + cs.length - 1 := by
  intro cs
  induction cs with
  | nil => intro i cursor offset _; simp [findIdxAux]
  | cons c rest ih =>
    intro i cursor offset hofs
    rw [spanSum_cons] at hofs
    have hnl : ¬(offset < cursor + max 1 (getChildTextLength c)) := by omega
    simp only [findIdxAux, if_neg hnl]
    rw [ih (i + 1) (cursor + max 1 (getChildTextLength c)) offset (by omega)]
    simp only [List.length_cons]
    omega

theorem findIdxAux_lt_total :
    ∀ (cs : List XNode) (i cursor offset : Nat), cursor ≤ offset →
      offset < cursor + spanSum cs →
      ∃ j, j < cs.length ∧ findIdxAux offset cs i cursor = i + j ∧
        cursor + spanSum (cs.take j) ≤ offset ∧
        offset < cursor + spanSum (cs.take (j + 1)) := by
  intro cs
  induction cs with
  | nil =>
    intro i cursor offset hc hofs
    rw [spanSum_nil] at hofs
    omega
  | cons c rest ih =>
    intro i cursor offset hcur hofs
    by_cases hhit : offset < cursor + max 1 (getChildTextLength c)
    · refine ⟨0, by simp, ?_, ?_, ?_⟩
      · simp [findIdxAux, hhit]
      · simp only [List.take_zero, spanSum_nil]
        omega
      · simp only [List.take_succ_cons, List.take_zero, spanSum_cons, spanSum_nil]
        omega
    · rw [spanSum_cons] at hofs
      have hofs' : offset < (cursor + max 1 (getChildTextLength c)) + spanSum rest := by
        omega
      obtain ⟨j, hj, heq, hlo, hhi⟩ :=
        ih (i + 1) (cursor + max 1 (getChildTextLength c)) offset (by omega) hofs'
      refine ⟨j + 1, by simp only [List.length_cons]; omega, ?_, ?_, ?_⟩
      · simp only [findIdxAux, if_neg hhit]
        rw [heq]
        omega
      · rw [List.take_succ_cons, spanSum_cons]
        omega
      · rw [List.take_succ_cons, spanSum_cons]
        omega

theorem findIdxAux_lt_length :
    ∀ (cs : List XNode) (i cursor offset : Nat), cs ≠ [] →
      findIdxAux offset cs i cursor < i + cs.length := by
  intro cs
  induction cs with
  | nil => intro i cursor offset h; exact absurd rfl h
  | cons c rest ih =>
    intro i cursor offset _
    by_cases hhit : offset < cursor + max 1 (getChildTextLength c)
    · simp only [findIdxAux, if_pos hhit, List.length_cons]
      omega
    · simp only [findIdxAux, if_neg hhit]
      cases hre : rest with
      | nil =>
        simp only [hre, findIdxAux, List.length_cons, List.length_nil]
        omega
      | cons d r =>
        have := ih (i + 1) (cursor + max 1 (getChildTextLength c)) offset (by simp [hre])
        rw [hre] at this
        simp only [hre, List.length_cons] at this ⊢
        omega

/-! ### The linear probe never lands on a used index -/

theorem filter_ge_split (used : List Nat) (k : Nat) :
    (used.filter (fun x => k ≤ x)).length =
      (used.filter (fun x => x = k)).length +
        (used.filter (fun x => k + 1 ≤ x)).length := by
  induction used with
  | nil => rfl
  | cons u rest ih =>
    by_cases hu : k ≤ u
    · by_cases he : u = k
      · subst he
        rw [List.filter_cons_of_pos (by simp),
          List.filter_cons_of_pos (by simp),
          List.filter_cons_of_neg (by simp)]
        simp only [List.length_cons]
        omega
      · rw [List.filter_cons_of_pos (by simp [hu]),
          List.filter_cons_of_neg (by simp [he]),
          List.filter_cons_of_pos (by simp; omega)]
        simp only [List.length_cons]
        omega
    · rw [List.filter_cons_of_neg (by simp [hu]),
        List.filter_cons_of_neg (by simp; omega),
        List.filter_cons_of_neg (by simp; omega)]
      exact ih

theorem probeFrom_not_mem (used : List Nat) :
    ∀ fuel k, (used.filter (fun x => k ≤ x)).length < fuel →
      probeFrom used fuel k ∉ used := by
  intro fuel
  induction fuel with
  | zero => intro k h; omega
  | succ f ih =>
    intro k h
    simp only [probeFrom]
    by_cases hk : k ∈ used
    · rw [if_pos hk]
      apply ih
      have hsplit := filter_ge_split used k
      have hmem : k ∈ used.filter (fun x => x = k) := by
        simp [List.mem_filter, hk]
      have hpos : 0 < (used.filter (fun x => x = k)).length :=
        List.length_pos.mpr (List.ne_nil_of_mem hmem)
      omega
    · rw [if_neg hk]
      exact hk

theorem nextFreeIdx_not_mem (used : List Nat) (k : Nat) : nextFreeIdx used k ∉ used := by
  apply probeFrom_not_mem
  have := (List.filter_sublist (p := fun x => k ≤ x) (l := used)).length_le
  omega

/-! ### Used-map lemmas -/

theorem mapGetUsed_set_same (m : List (Nat × List Nat)) (k : Nat) (v : List Nat) :
    mapGetUsed (mapSetUsed m k v) k = some v := by
  unfold mapSetUsed
  by_cases hany : m.any (fun e => e.1 = k)
  · rw [if_pos hany]
    induction m with
    | nil => simp at hany
    | cons e rest ih =>
      by_cases he : e.1 = k
      · unfold mapGetUsed
        rw [List.map_cons, if_pos he]
        rw [List.find?_cons_of_pos _ (by simp)]
        rfl
      · unfold mapGetUsed
        rw [List.map_cons, if_neg he]
        rw [List.find?_cons_of_neg _ (by simp [he])]
        have hany' : rest.any (fun e => e.1 = k) := by
          simp only [List.any_cons] at hany
          rcases Bool.or_eq_true_iff.mp hany with h | h
          · exact absurd (by simpa using h) he
          · exact h
        exact ih hany'
  · rw [if_neg hany]
    unfold mapGetUsed
    rw [List.find?_append]
    have hnone : m.find? (fun e => e.1 = k) = none := by
      rw [List.find?_eq_none]
      intro e he
      simp only [decide_eq_true_eq]
      intro hek
      exact hany (List.any_eq_true.mpr ⟨e, he, by simp [hek]⟩)
    rw [hnone]
    simp [List.find?]

theorem mapGetUsed_set_other (m : List (Nat × List Nat)) (k : Nat) (v : List Nat)
    (k' : Nat) (h : k' ≠ k) :
    mapGetUsed (mapSetUsed m k v) k' = mapGetUsed m k' := by
  unfold mapSetUsed
  by_cases hany : m.any (fun e => e.1 = k)
  · rw [if_pos hany]
    clear hany
    induction m with
    | nil => rfl
    | cons e rest ih =>
      by_cases he : e.1 = k
      · unfold mapGetUsed
        rw [List.map_cons, if_pos he]
        rw [List.find?_cons_of_neg _ (by simp [Ne.symm h]),
          List.find?_cons_of_neg _ (by simp [he, Ne.symm h])]
        exact ih
      · unfold mapGetUsed
        rw [List.map_cons, if_neg he]
        by_cases he' : e.1 = k'
        · rw [List.find?_cons_of_pos _ (by simp [he']),
            List.find?_cons_of_pos _ (by simp [he'])]
        · rw [List.find?_cons_of_neg _ (by simp [he']),
            List.find?_cons_of_neg _ (by simp [he'])]
          exact ih
  · rw [if_neg hany]
    unfold mapGetUsed
    rw [List.find?_append]
    have hlast : ([(k, v)].find? (fun e => e.1 = k')) = none := by
      rw [List.find?_eq_none]
      intro e he
      simp only [List.mem_singleton] at he
      subst he
      simp [Ne.symm h]
    rw [hlast]
    cases m.find? (fun e => e.1 = k') <;> rfl

/-! ### Comments-part lemmas -/

theorem commentElemsF_append (xs ys : List XNode) :
    commentElemsF (xs ++ ys) = commentElemsF xs ++ commentElemsF ys := by
  induction xs with
  | nil => simp [commentElemsF]
  | cons n rest ih =>
    simp only [List.cons_append, commentElemsF]
    rw [show rest.append ys = rest ++ ys from rfl, ih, List.append_assoc]

theorem commentElemsN_commentNode (cid : Int) (author isoDate : String) (text : List Char) :
    commentElemsN (commentNode cid author isoDate text) =
      [commentNode cid author isoDate text] := by
  simp [commentNode, commentElemsN, commentElemsF, wNS]

theorem commentNode_id_attr (cid : Int) (author isoDate : String) (text : List Char) :
    getXAttr (commentNode cid author isoDate text) "w:id" = some (toString cid) := by
  simp [commentNode, getXAttr, getAttrL, List.find?]

theorem addNativeComment_root (attrs : List (String × String)) (cs : List XNode)
    (cid : Int) (author isoDate : String) (text : List Char) :
    addNativeComment (.elem wNS "comments" attrs cs) cid author isoDate text =
      .elem wNS "comments" attrs (cs ++ [commentNode cid author isoDate text]) := by
  unfold addNativeComment
  have : appendToCommentsN (commentNode cid author isoDate text)
      (.elem wNS "comments" attrs cs) =
      some (.elem wNS "comments" attrs (cs ++ [commentNode cid author isoDate text])) := by
    unfold appendToCommentsN
    rw [if_pos ⟨rfl, rfl⟩]
  rw [this]

theorem commentElemsN_comments_root (attrs : List (String × String)) (cs : List XNode) :
    commentElemsN (XNode.elem wNS "comments" attrs cs) = commentElemsF cs := by
  have hne : ¬(wNS = wNS ∧ "comments" = "comment") := by
    intro h
    exact absurd h.2 (by decide)
  simp [commentElemsN, hne]

/-! ### `getMaxCommentId` bounds -/

theorem maxIdFold_ge (l : List XNode) :
    ∀ mx0 : Int, mx0 ≤ l.foldl
      (fun mx n =>
        match jsParseInt ((getXAttr n "w:id").getD "0") with
        | some v => if mx < v then v else mx
        | none => mx) mx0 := by
  induction l with
  | nil => intro mx0; simp
  | cons n rest ih =>
    intro mx0
    simp only [List.foldl_cons]
    cases hp : jsParseInt ((getXAttr n "w:id").getD "0") with
    | none =>
      simp only [hp]
      exact ih mx0
    | some v =>
      simp only [hp]
      by_cases hlt : mx0 < v
      · rw [if_pos hlt]
        have := ih v
        omega
      · rw [if_neg hlt]
        exact ih mx0

theorem maxIdFold_mem (l : List XNode) :
    ∀ (mx0 : Int) (n : XNode), n ∈ l →
      ∀ v : Int, jsParseInt ((getXAttr n "w:id").getD "0") = some v →
      v ≤ l.foldl
        (fun mx n =>
          match jsParseInt ((getXAttr n "w:id").getD "0") with
          | some v => if mx < v then v else mx
          | none => mx) mx0 := by
  induction l with
  | nil => intro mx0 n hn; simp at hn
  | cons m rest ih =>
    intro mx0 n hn v hv
    simp only [List.foldl_cons]
    rcases List.mem_cons.mp hn with he | hmem
    · subst he
      simp only [hv]
      by_cases hlt : mx0 < v
      · rw [if_pos hlt]
        exact maxIdFold_ge rest v
      · rw [if_neg hlt]
        have := maxIdFold_ge rest mx0
        omega
    · cases hp : jsParseInt ((getXAttr m "w:id").getD "0") with
      | none =>
        simp only [hp]
        exact ih mx0 n hmem v hv
      | some w =>
        simp only [hp]
        by_cases hlt : mx0 < w
        · rw [if_pos hlt]
          exact ih w n hmem v hv
        · rw [if_neg hlt]
          exact ih mx0 n hmem v hv

theorem getMaxCommentId_nonneg (doc : XNode) : 0 ≤ getMaxCommentId doc :=
  maxIdFold_ge _ 0

theorem getMaxCommentId_ge_mem (doc : XNode) (n : XNode) (hn : n ∈ commentElemsN doc)
    (v : Int) (hv : jsParseInt ((getXAttr n "w:id").getD "0") = some v) :
    v ≤ getMaxCommentId doc :=
  maxIdFold_mem _ 0 n hn v hv

/-! ### Matcher lemmas -/

theorem findBest_empty (pr : List Char → List Char → Nat) (ps : List XNode)
    (texts : List (List Char)) (a : List Char) (h : cleanAnchorText a = []) :
    findBestParagraphMatch pr ps texts a = ⟨-1, 0, "partial_ratio"⟩ := by
  unfold findBestParagraphMatch
  rw [if_pos h]

theorem findBest_length_congr (pr : List Char → List Char → Nat) (ps ps' : List XNode)
    (texts : List (List Char)) (a : List Char) (h : ps.length = ps'.length) :
    findBestParagraphMatch pr ps texts a = findBestParagraphMatch pr ps' texts a := by
  unfold findBestParagraphMatch
  rw [h]

theorem collapseWsAux_all_ws (a : List Char) (h : ∀ c ∈ a, isWsChar c = true) :
    ∀ b : Bool, collapseWsAux a b = if a = [] then [] else if b then [] else [' '] := by
  induction a with
  | nil => intro b; rfl
  | cons c rest ih =>
    intro b
    have hc : isWsChar c = true := h c (by simp)
    have hrest : ∀ x ∈ rest, isWsChar x = true := fun x hx => h x (by simp [hx])
    simp only [collapseWsAux, hc, if_pos]
    rw [ih hrest true]
    by_cases hre : rest = [] <;> cases b <;> simp [hre]

theorem cleanAnchorText_all_ws (a : List Char) (h : ∀ c ∈ a, isWsChar c = true) :
    cleanAnchorText a = [] := by
  unfold cleanAnchorText
  rw [collapseWsAux_all_ws a h false]
  by_cases hre : a = []
  · simp [hre]
    rfl
  · simp [hre]
    rfl

/-! ### Merge-step equations -/

theorem mergeStep_skip (pr : List Char → List Char → Nat) (texts : List (List Char))
    (nowIso : String) (s : LoopState) (i : Nat) (item : MergeItem)
    (hbm : (findBestParagraphMatch pr s.paragraphs texts (item.anchor_text.getD [])).bestIndex < 0) :
    mergeStep pr texts nowIso s i item = s := by
  unfold mergeStep
  simp only [if_pos hbm]

theorem mergeStep_miss (pr : List Char → List Char → Nat) (texts : List (List Char))
    (nowIso : String) (s : LoopState) (i : Nat) (item : MergeItem)
    (hbm : ¬(findBestParagraphMatch pr s.paragraphs texts (item.anchor_text.getD [])).bestIndex < 0)
    (hp : s.paragraphs[(findBestParagraphMatch pr s.paragraphs texts
      (item.anchor_text.getD [])).bestIndex.toNat]? = none) :
    mergeStep pr texts nowIso s i item = s := by
  unfold mergeStep
  simp only [if_neg hbm, hp]

theorem mergeStep_hit (pr : List Char → List Char → Nat) (texts : List (List Char))
    (nowIso : String) (s : LoopState) (i : Nat) (item : MergeItem) (para : XNode)
    (hbm : ¬(findBestParagraphMatch pr s.paragraphs texts (item.anchor_text.getD [])).bestIndex < 0)
    (hp : s.paragraphs[(findBestParagraphMatch pr s.paragraphs texts
      (item.anchor_text.getD [])).bestIndex.toNat]? = some para) :
    mergeStep pr texts nowIso s i item =
      mergeStepCore pr texts nowIso s i item
        (findBestParagraphMatch pr s.paragraphs texts (item.anchor_text.getD [])) para := by
  unfold mergeStep
  simp only [if_neg hbm, hp]

theorem mergeStep_empty_anchor (pr : List Char → List Char → Nat) (texts : List (List Char))
    (nowIso : String) (s : LoopState) (i : Nat) (item : MergeItem)
    (h : cleanAnchorText (item.anchor_text.getD []) = []) :
    mergeStep pr texts nowIso s i item = s := by
  apply mergeStep_skip
  rw [findBest_empty pr s.paragraphs texts (item.anchor_text.getD []) h]
  decide

/-! ### Step dichotomy and loop invariants -/

/-- The all-absent record. -/
def defaultMergeItem : MergeItem := ⟨none, none, none, none⟩

theorem mergeStepCore_details_ex (pr : List Char → List Char → Nat)
    (texts : List (List Char)) (nowIso : String) (s : LoopState) (i : Nat)
    (item : MergeItem) (bm : BestMatch) (para : XNode) :
    ∃ d0 : Detail,
      (mergeStepCore pr texts nowIso s i item bm para).details = s.details ++ [d0] ∧
      d0.index = i ∧
      d0.anchorNodeIndex = mergeAnchorIdx pr (texts.getD bm.bestIndex.toNat [])
        (item.anchor_text.getD []) para ((mapGetUsed s.usedMap bm.bestIndex.toNat).getD []) ∧
      d0.startMethod = (locateStart pr (texts.getD bm.bestIndex.toNat [])
        (item.anchor_text.getD [])).1 ∧
      d0.approxStart = (locateStart pr (texts.getD bm.bestIndex.toNat [])
        (item.anchor_text.getD [])).2 :=
  ⟨_, rfl, rfl, rfl, rfl, rfl⟩

theorem mergeStepCore_mergedCount (pr : List Char → List Char → Nat)
    (texts : List (List Char)) (nowIso : String) (s : LoopState) (i : Nat)
    (item : MergeItem) (bm : BestMatch) (para : XNode) :
    (mergeStepCore pr texts nowIso s i item bm para).mergedCount = s.mergedCount + 1 := rfl

theorem mergeStepCore_nextCommentId (pr : List Char → List Char → Nat)
    (texts : List (List Char)) (nowIso : String) (s : LoopState) (i : Nat)
    (item : MergeItem) (bm : BestMatch) (para : XNode) :
    (mergeStepCore pr texts nowIso s i item bm para).nextCommentId = s.nextCommentId + 1 := rfl

theorem mergeStepCore_commentsDoc (pr : List Char → List Char → Nat)
    (texts : List (List Char)) (nowIso : String) (s : LoopState) (i : Nat)
    (item : MergeItem) (bm : BestMatch) (para : XNode) :
    (mergeStepCore pr texts nowIso s i item bm para).commentsDoc =
      addNativeComment s.commentsDoc s.nextCommentId (mergeAuthor item) nowIso
        (mergeFullText item) := rfl

theorem mergeStepCore_paragraphs (pr : List Char → List Char → Nat)
    (texts : List (List Char)) (nowIso : String) (s : LoopState) (i : Nat)
    (item : MergeItem) (bm : BestMatch) (para : XNode) :
    (mergeStepCore pr texts nowIso s i item bm para).paragraphs =
      s.paragraphs.set bm.bestIndex.toNat
        (insertCommentAnchorIntoParagraph para s.nextCommentId
          (mergeAnchorIdx pr (texts.getD bm.bestIndex.toNat []) (item.anchor_text.getD [])
            para ((mapGetUsed s.usedMap bm.bestIndex.toNat).getD []))) := rfl

theorem mergeStepCore_usedMap (pr : List Char → List Char → Nat)
    (texts : List (List Char)) (nowIso : String) (s : LoopState) (i : Nat)
    (item : MergeItem) (bm : BestMatch) (para : XNode) :
    (mergeStepCore pr texts nowIso s i item bm para).usedMap =
      mapSetUsed s.usedMap bm.bestIndex.toNat
        (mergeAnchorIdx pr (texts.getD bm.bestIndex.toNat []) (item.anchor_text.getD [])
            para ((mapGetUsed s.usedMap bm.bestIndex.toNat).getD []) ::
          (mapGetUsed s.usedMap bm.bestIndex.toNat).getD []) := rfl

theorem mergeStep_dichotomy (pr : List Char → List Char → Nat) (texts : List (List Char))
    (nowIso : String) (s : LoopState) (i : Nat) (item : MergeItem) :
    mergeStep pr texts nowIso s i item = s ∨
    ∃ para,
      0 ≤ (findBestParagraphMatch pr s.paragraphs texts (item.anchor_text.getD [])).bestIndex ∧
      s.paragraphs[(findBestParagraphMatch pr s.paragraphs texts
        (item.anchor_text.getD [])).bestIndex.toNat]? = some para ∧
      mergeStep pr texts nowIso s i item =
        mergeStepCore pr texts nowIso s i item
          (findBestParagraphMatch pr s.paragraphs texts (item.anchor_text.getD [])) para := by
  by_cases hbm : (findBestParagraphMatch pr s.paragraphs texts
      (item.anchor_text.getD [])).bestIndex < 0
  · left
    exact mergeStep_skip pr texts nowIso s i item hbm
  · cases hp : s.paragraphs[(findBestParagraphMatch pr s.paragraphs texts
        (item.anchor_text.getD [])).bestIndex.toNat]? with
    | none =>
      left
      exact mergeStep_miss pr texts nowIso s i item hbm hp
    | some para =>
      right
      exact ⟨para, by omega, rfl, mergeStep_hit pr texts nowIso s i item para hbm hp⟩

theorem mergeStep_paragraphs_length (pr : List Char → List Char → Nat)
    (texts : List (List Char)) (nowIso : String) (s : LoopState) (i : Nat)
    (item : MergeItem) :
    (mergeStep pr texts nowIso s i item).paragraphs.length = s.paragraphs.length := by
  rcases mergeStep_dichotomy pr texts nowIso s i item with heq | ⟨para, _, _, heq⟩
  · rw [heq]
  · rw [heq, mergeStepCore_paragraphs]
    simp

theorem mergeLoopAux_paragraphs_length (pr : List Char → List Char → Nat)
    (texts : List (List Char)) (nowIso : String) :
    ∀ (items : List MergeItem) (i0 : Nat) (s : LoopState),
      (mergeLoopAux pr texts nowIso items i0 s).paragraphs.length = s.paragraphs.length := by
  intro items
  induction items with
  | nil => intro i0 s; rfl
  | cons item rest ih =>
    intro i0 s
    simp only [mergeLoopAux]
    rw [ih (i0 + 1) (mergeStep pr texts nowIso s i0 item)]
    exact mergeStep_paragraphs_length pr texts nowIso s i0 item

theorem mergeLoopAux_report (pr : List Char → List Char → Nat) (texts : List (List Char))
    (nowIso : String) :
    ∀ (items : List MergeItem) (i0 : Nat) (s : LoopState),
      ∃ extra : List Detail,
        (mergeLoopAux pr texts nowIso items i0 s).details = s.details ++ extra ∧
        (mergeLoopAux pr texts nowIso items i0 s).mergedCount = s.mergedCount + extra.length ∧
        (∀ d ∈ extra, i0 ≤ d.index ∧ d.index < i0 + items.length) ∧
        extra.Pairwise (fun d1 d2 => d1.index < d2.index) := by
  intro items
  induction items with
  | nil =>
    intro i0 s
    exact ⟨[], by simp [mergeLoopAux], by simp [mergeLoopAux], by simp, by simp⟩
  | cons item rest ih =>
    intro i0 s
    simp only [mergeLoopAux]
    rcases mergeStep_dichotomy pr texts nowIso s i0 item with heq | ⟨para, hge, hp, heq⟩
    · rw [heq]
      obtain ⟨extra, h1, h2, h3, h4⟩ := ih (i0 + 1) s
      refine ⟨extra, h1, h2, ?_, h4⟩
      intro d hd
      have := h3 d hd
      simp only [List.length_cons]
      omega
    · rw [heq]
      obtain ⟨extra, h1, h2, h3, h4⟩ := ih (i0 + 1)
        (mergeStepCore pr texts nowIso s i0 item
          (findBestParagraphMatch pr s.paragraphs texts (item.anchor_text.getD [])) para)
      obtain ⟨d0, hd0, hd0i, -, -, -⟩ := mergeStepCore_details_ex pr texts nowIso s i0 item
        (findBestParagraphMatch pr s.paragraphs texts (item.anchor_text.getD [])) para
      rw [hd0] at h1
      rw [mergeStepCore_mergedCount] at h2
      refine ⟨d0 :: extra, ?_, ?_, ?_, ?_⟩
      · rw [h1, List.append_assoc]
        rfl
      · rw [h2]
        simp only [List.length_cons]
        omega
      · intro d hd
        rcases List.mem_cons.mp hd with he | hmem
        · subst he
          simp only [hd0i, List.length_cons]
          omega
        · have := h3 d hmem
          simp only [List.length_cons]
          omega
      · rw [List.pairwise_cons]
        refine ⟨?_, h4⟩
        intro d hd
        have := h3 d hd
        omega

/-- Index-bounded strictly-increasing lists are no longer than their range. -/
theorem pairwise_lt_length_le :
    ∀ (l : List Nat) (lo hi : Nat), l.Pairwise (fun a b => a < b) →
      (∀ x ∈ l, lo ≤ x ∧ x < hi) → l.length ≤ hi - lo := by
  intro l
  induction l with
  | nil => intro lo hi _ _; simp
  | cons x rest ih =>
    intro lo hi hpw hb
    rw [List.pairwise_cons] at hpw
    have hx := hb x (by simp)
    have hrest : ∀ y ∈ rest, x + 1 ≤ y ∧ y < hi := by
      intro y hy
      exact ⟨hpw.1 y hy, (hb y (by simp [hy])).2⟩
    have := ih (x + 1) hi hpw.2 hrest
    simp only [List.length_cons]
    omega

/-! ### The comments-part loop invariant -/

theorem mergeLoopAux_comments (pr : List Char → List Char → Nat)
    (texts : List (List Char)) (nowIso : String) :
    ∀ (items : List MergeItem) (i0 : Nat) (s : LoopState)
      (attrs : List (String × String)) (cs : List XNode),
      s.commentsDoc = XNode.elem wNS "comments" attrs cs →
      ∃ (m : Nat) (news : List XNode),
        (mergeLoopAux pr texts nowIso items i0 s).commentsDoc =
          XNode.elem wNS "comments" attrs (cs ++ news) ∧
        (mergeLoopAux pr texts nowIso items i0 s).mergedCount = s.mergedCount + m ∧
        (mergeLoopAux pr texts nowIso items i0 s).nextCommentId = s.nextCommentId + m ∧
        news.map (fun n => getXAttr n "w:id") =
          (List.range m).map (fun (k : Nat) => some (toString (s.nextCommentId + (k : Int)))) ∧
        commentElemsF news = news := by
  intro items
  induction items with
  | nil =>
    intro i0 s attrs cs hdoc
    refine ⟨0, [], ?_, by simp [mergeLoopAux], by simp [mergeLoopAux], by simp, rfl⟩
    simp only [mergeLoopAux, List.append_nil]
    exact hdoc
  | cons item rest ih =>
    intro i0 s attrs cs hdoc
    simp only [mergeLoopAux]
    rcases mergeStep_dichotomy pr texts nowIso s i0 item with heq | ⟨para, hge, hp, heq⟩
    · rw [heq]
      exact ih (i0 + 1) s attrs cs hdoc
    · rw [heq]
      have hdoc1 : (mergeStepCore pr texts nowIso s i0 item
          (findBestParagraphMatch pr s.paragraphs texts (item.anchor_text.getD [])) para).commentsDoc =
          XNode.elem wNS "comments" attrs
            (cs ++ [commentNode s.nextCommentId (mergeAuthor item) nowIso (mergeFullText item)]) := by
        rw [mergeStepCore_commentsDoc, hdoc, addNativeComment_root]
      obtain ⟨m', news', h1, h2, h3, h4, h5⟩ := ih (i0 + 1) _ attrs
        (cs ++ [commentNode s.nextCommentId (mergeAuthor item) nowIso (mergeFullText item)]) hdoc1
      refine ⟨m' + 1,
        commentNode s.nextCommentId (mergeAuthor item) nowIso (mergeFullText item) :: news',
        ?_, ?_, ?_, ?_, ?_⟩
      · rw [h1, List.append_assoc]
        rfl
      · rw [h2, mergeStepCore_mergedCount]
        omega
      · rw [h3, mergeStepCore_nextCommentId]
        omega
      · rw [List.map_cons, commentNode_id_attr]
        rw [mergeStepCore_nextCommentId] at h4
        rw [h4]
        rw [List.range_succ_eq_map, List.map_cons, List.map_map]
        congr 1
        · norm_num
        · apply List.map_congr_left
          intro k _
          simp only [Function.comp_apply, Option.some.injEq]
          congr 1
          push_cast
          ring
      · simp only [commentElemsF, commentElemsN_commentNode, h5]
        rfl

/-! ### The anchor-collision loop invariant -/

/-- The per-paragraph used anchor-index set of a state. -/
def usedSetOf (s : LoopState) (p : Nat) : List Nat :=
  (mapGetUsed s.usedMap p).getD []

theorem mergeLoopAux_distinct (pr : List Char → List Char → Nat)
    (texts : List (List Char)) (nowIso : String) (paragraphs0 : List XNode)
    (anchorOf : Nat → List Char) :
    ∀ (items : List MergeItem) (i0 : Nat) (s : LoopState),
      s.paragraphs.length = paragraphs0.length →
      (∀ j, j < items.length →
        anchorOf (i0 + j) = (items.getD j defaultMergeItem).anchor_text.getD []) →
      (∀ d ∈ s.details,
        0 ≤ (findBestParagraphMatch pr paragraphs0 texts (anchorOf d.index)).bestIndex ∧
        d.anchorNodeIndex ∈ usedSetOf s
          (findBestParagraphMatch pr paragraphs0 texts (anchorOf d.index)).bestIndex.toNat) →
      s.details.Pairwise (fun d1 d2 =>
        (findBestParagraphMatch pr paragraphs0 texts (anchorOf d1.index)).bestIndex =
          (findBestParagraphMatch pr paragraphs0 texts (anchorOf d2.index)).bestIndex →
        d1.anchorNodeIndex ≠ d2.anchorNodeIndex) →
      ((∀ d ∈ (mergeLoopAux pr texts nowIso items i0 s).details,
          0 ≤ (findBestParagraphMatch pr paragraphs0 texts (anchorOf d.index)).bestIndex ∧
          d.anchorNodeIndex ∈ usedSetOf (mergeLoopAux pr texts nowIso items i0 s)
            (findBestParagraphMatch pr paragraphs0 texts (anchorOf d.index)).bestIndex.toNat) ∧
        (mergeLoopAux pr texts nowIso items i0 s).details.Pairwise (fun d1 d2 =>
          (findBestParagraphMatch pr paragraphs0 texts (anchorOf d1.index)).bestIndex =
            (findBestParagraphMatch pr paragraphs0 texts (anchorOf d2.index)).bestIndex →
          d1.anchorNodeIndex ≠ d2.anchorNodeIndex)) := by
  intro items
  induction items with
  | nil =>
    intro i0 s hlen hanch hI1 hI2
    exact ⟨hI1, hI2⟩
  | cons item rest ih =>
    intro i0 s hlen hanch hI1 hI2
    simp only [mergeLoopAux]
    have hanch0 : anchorOf i0 = item.anchor_text.getD [] := by
      have := hanch 0 (by simp)
      simpa using this
    rcases mergeStep_dichotomy pr texts nowIso s i0 item with heq | ⟨para, hge, hp, heq⟩
    · rw [heq]
      refine ih (i0 + 1) s hlen ?_ hI1 hI2
      intro j hj
      have := hanch (j + 1) (by simp; omega)
      rw [show i0 + 1 + j = i0 + (j + 1) by omega]
      rw [this]
      rfl
    · rw [heq]
      set bm := findBestParagraphMatch pr s.paragraphs texts (item.anchor_text.getD []) with hbm
      have hbm0 : bm = findBestParagraphMatch pr paragraphs0 texts (anchorOf i0) := by
        rw [hbm, hanch0]
        exact findBest_length_congr pr s.paragraphs paragraphs0 texts _ hlen
      set s1 := mergeStepCore pr texts nowIso s i0 item bm para with hs1
      have hs1len : s1.paragraphs.length = paragraphs0.length := by
        rw [hs1, mergeStepCore_paragraphs]
        simp [hlen]
      set aidx := mergeAnchorIdx pr (texts.getD bm.bestIndex.toNat [])
        (item.anchor_text.getD []) para ((mapGetUsed s.usedMap bm.bestIndex.toNat).getD [])
        with haidx
      have haidx_notmem : aidx ∉ (mapGetUsed s.usedMap bm.bestIndex.toNat).getD [] := by
        rw [haidx]
        unfold mergeAnchorIdx
        exact nextFreeIdx_not_mem _ _
      obtain ⟨d0, hd0, hd0i, hd0a, -, -⟩ :=
        mergeStepCore_details_ex pr texts nowIso s i0 item bm para
      have hd0B : (findBestParagraphMatch pr paragraphs0 texts (anchorOf d0.index)).bestIndex =
          bm.bestIndex := by
        rw [hd0i, ← hbm0]
      have husedset : ∀ p : Nat, usedSetOf s1 p =
          if p = bm.bestIndex.toNat
          then aidx :: (mapGetUsed s.usedMap bm.bestIndex.toNat).getD []
          else usedSetOf s p := by
        intro p
        by_cases hpe : p = bm.bestIndex.toNat
        · subst hpe
          rw [if_pos rfl]
          unfold usedSetOf
          rw [hs1, mergeStepCore_usedMap, ← haidx, mapGetUsed_set_same]
          rfl
        · rw [if_neg hpe]
          unfold usedSetOf
          rw [hs1, mergeStepCore_usedMap, mapGetUsed_set_other _ _ _ _ hpe]
      have hI1' : ∀ d ∈ s1.details,
          0 ≤ (findBestParagraphMatch pr paragraphs0 texts (anchorOf d.index)).bestIndex ∧
          d.anchorNodeIndex ∈ usedSetOf s1
            (findBestParagraphMatch pr paragraphs0 texts (anchorOf d.index)).bestIndex.toNat := by
        intro d hd
        rw [hs1] at hd
        rw [hd0] at hd
        rcases List.mem_append.mp hd with hmem | hmem
        · obtain ⟨hge', hu⟩ := hI1 d hmem
          refine ⟨hge', ?_⟩
          rw [husedset]
          by_cases hpe : (findBestParagraphMatch pr paragraphs0 texts
              (anchorOf d.index)).bestIndex.toNat = bm.bestIndex.toNat
          · rw [if_pos hpe]
            rw [hpe] at hu
            exact List.mem_cons_of_mem _ hu
          · rw [if_neg hpe]
            exact hu
        · have hde : d = d0 := by simpa using hmem
          subst hde
          refine ⟨by rw [hd0B]; omega, ?_⟩
          rw [husedset, hd0B, if_pos rfl, hd0a, ← haidx]
          exact List.mem_cons_self _ _
      have hI2' : s1.details.Pairwise (fun d1 d2 =>
          (findBestParagraphMatch pr paragraphs0 texts (anchorOf d1.index)).bestIndex =
            (findBestParagraphMatch pr paragraphs0 texts (anchorOf d2.index)).bestIndex →
          d1.anchorNodeIndex ≠ d2.anchorNodeIndex) := by
        have hd0' : s1.details = s.details ++ [d0] := by rw [hs1]; exact hd0
        rw [hd0', List.pairwise_append]
        refine ⟨hI2, by simp, ?_⟩
        intro d hd d' hd'
        have hde : d' = d0 := by simpa using hd'
        subst hde
        intro hBeq
        obtain ⟨hge', hu⟩ := hI1 d hd
        rw [hBeq, hd0B] at hu
        rw [hd0a, ← haidx]
        intro hcontra
        rw [hcontra] at hu
        exact haidx_notmem hu
      refine ih (i0 + 1) s1 hs1len ?_ hI1' hI2'
      intro j hj
      have := hanch (j + 1) (by simp; omega)
      rw [show i0 + 1 + j = i0 + (j + 1) by omega]
      rw [this]
      rfl

/-! ### Package-rewriter lemmas -/

theorem maxRIdFold_ge (l : List XRel) :
    ∀ mx0 : Nat, mx0 ≤ l.foldl
      (fun mx r =>
        match parseRIdNum r.id with
        | some n => if mx < n then n else mx
        | none => mx) mx0 := by
  induction l with
  | nil => intro mx0; simp
  | cons r rest ih =>
    intro mx0
    simp only [List.foldl_cons]
    cases hp : parseRIdNum r.id with
    | none =>
      simp only [hp]
      exact ih mx0
    | some n =>
      simp only [hp]
      by_cases hlt : mx0 < n
      · rw [if_pos hlt]
        have := ih n
        omega
      · rw [if_neg hlt]
        exact ih mx0

theorem maxRIdFold_mem (l : List XRel) :
    ∀ (mx0 : Nat) (r : XRel), r ∈ l → ∀ n : Nat, parseRIdNum r.id = some n →
      n ≤ l.foldl
        (fun mx r =>
          match parseRIdNum r.id with
          | some n => if mx < n then n else mx
          | none => mx) mx0 := by
  induction l with
  | nil => intro mx0 r hr; simp at hr
  | cons q rest ih =>
    intro mx0 r hr n hn
    simp only [List.foldl_cons]
    rcases List.mem_cons.mp hr with he | hmem
    · subst he
      simp only [hn]
      by_cases hlt : mx0 < n
      · rw [if_pos hlt]
        exact maxRIdFold_ge rest n
      · rw [if_neg hlt]
        have := maxRIdFold_ge rest mx0
        omega
    · cases hp : parseRIdNum q.id with
      | none =>
        simp only [hp]
        exact ih mx0 r hmem n hn
      | some w =>
        simp only [hp]
        by_cases hlt : mx0 < w
        · rw [if_pos hlt]
          exact ih w r hmem n hn
        · rw [if_neg hlt]
          exact ih mx0 r hmem n hn

theorem maxRIdNum_ge_mem (rels : List XRel) (r : XRel) (hr : r ∈ rels) (n : Nat)
    (hn : parseRIdNum r.id = some n) : n ≤ maxRIdNum rels :=
  maxRIdFold_mem rels 0 r hr n hn

/-- Claim C8 — the content-types fix-up is a no-op when the Override exists,
and the relationships fix-up is a no-op when a comments relationship exists;
both are idempotent; a synthesized relationship id is rId(maxNum + 1), one
greater than every existing numeric rId. -/
theorem c8_rewriter_idempotent (overrides : List CTOverride) (rels : List XRel) :
    (ensureCommentsPartInContentTypes (ensureCommentsPartInContentTypes overrides) =
      ensureCommentsPartInContentTypes overrides) ∧
    ((∃ o ∈ overrides, o.partName = "/word/comments.xml") →
      ensureCommentsPartInContentTypes overrides = overrides) ∧
    ((ensureCommentsRelationship (ensureCommentsRelationship rels).2).2 =
      (ensureCommentsRelationship rels).2) ∧
    ((∃ r ∈ rels, r.type = commentsRelType) → (ensureCommentsRelationship rels).2 = rels) ∧
    ((∀ r ∈ rels, r.type ≠ commentsRelType) →
      (ensureCommentsRelationship rels).1 = "rId" ++ toString (maxRIdNum rels + 1) ∧
      (ensureCommentsRelationship rels).2 = rels ++
        [⟨"rId" ++ toString (maxRIdNum rels + 1), commentsRelType, "comments.xml"⟩] ∧
      (∀ r ∈ rels, ∀ n : Nat, parseRIdNum r.id = some n → n < maxRIdNum rels + 1)) := by
  have hctmem : ∀ d : List CTOverride, (∃ o ∈ d, o.partName = "/word/comments.xml") →
      ensureCommentsPartInContentTypes d = d := by
    intro d ⟨o, ho, hp⟩
    unfold ensureCommentsPartInContentTypes
    rw [if_pos (List.any_eq_true.mpr ⟨o, ho, by simp [hp]⟩)]
  have hrelnone : (∀ r ∈ rels, r.type ≠ commentsRelType) →
      rels.find? (fun r => r.type = commentsRelType) = none := by
    intro h
    rw [List.find?_eq_none]
    intro r hr
    simp only [decide_eq_true_eq]
    exact h r hr
  refine ⟨?_, hctmem overrides, ?_, ?_, ?_⟩
  · by_cases hany : overrides.any (fun o => o.partName = "/word/comments.xml")
    · unfold ensureCommentsPartInContentTypes
      rw [if_pos hany, if_pos hany]
    · have h1 : ensureCommentsPartInContentTypes overrides = overrides ++ [commentsOverride] := by
        unfold ensureCommentsPartInContentTypes
        rw [if_neg hany]
      rw [h1]
      apply hctmem
      exact ⟨commentsOverride, by simp, rfl⟩
  · cases hfind : rels.find? (fun r => r.type = commentsRelType) with
    | some r =>
      have h1 : ensureCommentsRelationship rels = (jsOrStr r.id "rIdComments", rels) := by
        unfold ensureCommentsRelationship
        rw [hfind]
      rw [h1]
      simp only []
      rw [h1]
    | none =>
      have h1 : (ensureCommentsRelationship rels).2 = rels ++
          [⟨"rId" ++ toString (maxRIdNum rels + 1), commentsRelType, "comments.xml"⟩] := by
        unfold ensureCommentsRelationship
        rw [hfind]
      rw [h1]
      have h2 : (rels ++ [(⟨"rId" ++ toString (maxRIdNum rels + 1), commentsRelType,
          "comments.xml"⟩ : XRel)]).find? (fun r => r.type = commentsRelType) =
          some ⟨"rId" ++ toString (maxRIdNum rels + 1), commentsRelType, "comments.xml"⟩ := by
        rw [List.find?_append, hfind]
        simp [List.find?]
      unfold ensureCommentsRelationship
      rw [h2]
  · intro ⟨r, hr, ht⟩
    have hfind : ∃ q, rels.find? (fun r => r.type = commentsRelType) = some q := by
      have : (rels.find? (fun r => r.type = commentsRelType)).isSome := by
        rw [List.find?_isSome]
        exact ⟨r, hr, by simp [ht]⟩
      exact Option.isSome_iff_exists.mp this
    obtain ⟨q, hq⟩ := hfind
    unfold ensureCommentsRelationship
    rw [hq]
  · intro h
    have hfind := hrelnone h
    refine ⟨?_, ?_, ?_⟩
    · unfold ensureCommentsRelationship
      rw [hfind]
    · unfold ensureCommentsRelationship
      rw [hfind]
    · intro r hr n hn
      have := maxRIdNum_ge_mem rels r hr n hn
      omega

/-- Witness for C8 at a concrete relationships part. -/
theorem c8_witness :
    (∀ r ∈ [(⟨"rId3", "t", "x"⟩ : XRel)], r.type ≠ commentsRelType) ∧
    (ensureCommentsRelationship [(⟨"rId3", "t", "x"⟩ : XRel)]).1 = "rId4" := by
  have hne : ∀ r ∈ [(⟨"rId3", "t", "x"⟩ : XRel)], r.type ≠ commentsRelType := by
    intro r hr
    simp only [List.mem_singleton] at hr
    subst hr
    simp [commentsRelType]
  refine ⟨hne, ?_⟩
  have := ((c8_rewriter_idempotent [] [(⟨"rId3", "t", "x"⟩ : XRel)]).2.2.2.2 hne).1
  rw [this]
  rfl

/-- Claim C1 — inserting a comment anchor splices, as siblings inside the
paragraph, exactly commentRangeStart, the unmoved anchor node, commentRangeEnd
and the comment-reference run, in this order, all carrying the comment id. -/
theorem c1_anchor_insertion_order (ns tag : String) (attrs : List (String × String))
    (cs : List XNode) (cid : Int) (k : Nat) (target : XNode)
    (ht : (getDirectChildAnchorCandidates (XNode.elem ns tag attrs cs))[k]? = some target) :
    ∃ pre post,
      cs = pre ++ target :: post ∧
      (pre.filter isAnchorCandidate).length = k ∧
      insertCommentAnchorIntoParagraph (XNode.elem ns tag attrs cs) cid k =
        XNode.elem ns tag attrs (pre ++ commentRangeStartNode cid :: target ::
          commentRangeEndNode cid :: createCommentReferenceRun cid :: post) ∧
      getXAttr (commentRangeStartNode cid) "w:id" = some (toString cid) ∧
      getXAttr (commentRangeEndNode cid) "w:id" = some (toString cid) ∧
      createCommentReferenceRun cid = XNode.elem wNS "r" []
        [XNode.elem wNS "rPr" [] [XNode.elem wNS "rStyle" [("w:val", "CommentReference")] []],
         XNode.elem wNS "commentReference" [("w:id", toString cid)] []] := by
  have ht' : (cs.filter isAnchorCandidate)[k]? = some target := ht
  obtain ⟨pre, post, h1, h2, h3⟩ := insertAnchorAux_some cid cs k target ht'
  refine ⟨pre, post, h1, h2, ?_, rfl, rfl, rfl⟩
  simp only [insertCommentAnchorIntoParagraph]
  rw [h3]

/-- Witness for C1 on a one-run paragraph. -/
theorem c1_witness :
    ((getDirectChildAnchorCandidates (XNode.elem wNS "p" []
        [XNode.elem wNS "r" [] []]))[0]? = some (XNode.elem wNS "r" [] [])) ∧
    (∃ pre post,
      [XNode.elem wNS "r" [] []] = pre ++ (XNode.elem wNS "r" [] []) :: post ∧
      (pre.filter isAnchorCandidate).length = 0 ∧
      insertCommentAnchorIntoParagraph (XNode.elem wNS "p" []
          [XNode.elem wNS "r" [] []]) 1 0 =
        XNode.elem wNS "p" [] (pre ++ commentRangeStartNode 1 :: (XNode.elem wNS "r" [] []) ::
          commentRangeEndNode 1 :: createCommentReferenceRun 1 :: post) ∧
      getXAttr (commentRangeStartNode 1) "w:id" = some (toString (1 : Int)) ∧
      getXAttr (commentRangeEndNode 1) "w:id" = some (toString (1 : Int)) ∧
      createCommentReferenceRun 1 = XNode.elem wNS "r" []
        [XNode.elem wNS "rPr" [] [XNode.elem wNS "rStyle" [("w:val", "CommentReference")] []],
         XNode.elem wNS "commentReference" [("w:id", toString (1 : Int))] []]) :=
  ⟨rfl, c1_anchor_insertion_order wNS "p" [] [XNode.elem wNS "r" [] []] 1 0
    (XNode.elem wNS "r" [] []) rfl⟩

/-- Claim C10 — the offset-to-child mapping is total and in range: every
eligible child contributes max 1 of its text length, an offset at or past the
total maps to the last index, a paragraph with no eligible children yields 0,
and insertion past the candidate list appends a synthesized space run wrapped
in the comment markers. -/
theorem c10_offset_mapping_total (ns tag : String) (attrs : List (String × String))
    (cs : List XNode) (offset : Nat) :
    (∀ c : XNode, max1Len c = max 1 (getChildTextLength c)) ∧
    (getDirectChildAnchorCandidates (XNode.elem ns tag attrs cs) = [] →
      findBestAnchorCandidateIndexForOffset (XNode.elem ns tag attrs cs) offset = 0) ∧
    (getDirectChildAnchorCandidates (XNode.elem ns tag attrs cs) ≠ [] →
      findBestAnchorCandidateIndexForOffset (XNode.elem ns tag attrs cs) offset <
        (getDirectChildAnchorCandidates (XNode.elem ns tag attrs cs)).length) ∧
    (getDirectChildAnchorCandidates (XNode.elem ns tag attrs cs) ≠ [] →
      spanSum (getDirectChildAnchorCandidates (XNode.elem ns tag attrs cs)) ≤ offset →
      findBestAnchorCandidateIndexForOffset (XNode.elem ns tag attrs cs) offset =
        (getDirectChildAnchorCandidates (XNode.elem ns tag attrs cs)).length - 1) ∧
    (offset < spanSum (getDirectChildAnchorCandidates (XNode.elem ns tag attrs cs)) →
      ∃ j, j < (getDirectChildAnchorCandidates (XNode.elem ns tag attrs cs)).length ∧
        findBestAnchorCandidateIndexForOffset (XNode.elem ns tag attrs cs) offset = j ∧
        spanSum ((getDirectChildAnchorCandidates (XNode.elem ns tag attrs cs)).take j) ≤ offset ∧
        offset < spanSum ((getDirectChildAnchorCandidates
          (XNode.elem ns tag attrs cs)).take (j + 1))) ∧
    (∀ (cid : Int) (k : Nat), (cs.filter isAnchorCandidate).length ≤ k →
      insertCommentAnchorIntoParagraph (XNode.elem ns tag attrs cs) cid k =
        XNode.elem ns tag attrs (cs ++ [commentRangeStartNode cid, createSpaceRun,
          commentRangeEndNode cid, createCommentReferenceRun cid])) := by
  have hcands : getDirectChildAnchorCandidates (XNode.elem ns tag attrs cs) =
      cs.filter isAnchorCandidate := rfl
  refine ⟨fun c => rfl, ?_, ?_, ?_, ?_, ?_⟩
  · intro he
    unfold findBestAnchorCandidateIndexForOffset
    rw [hcands] at he ⊢
    rw [he]
    rfl
  · intro hne
    unfold findBestAnchorCandidateIndexForOffset
    rw [hcands] at hne ⊢
    rw [if_neg (by simp [List.isEmpty_iff, hne])]
    have := findIdxAux_lt_length (cs.filter isAnchorCandidate) 0 0 offset hne
    omega
  · intro hne hofs
    unfold findBestAnchorCandidateIndexForOffset
    rw [hcands] at hne hofs ⊢
    rw [if_neg (by simp [List.isEmpty_iff, hne])]
    have := findIdxAux_ge_total (cs.filter isAnchorCandidate) 0 0 offset (by omega)
    omega
  · intro hofs
    have hne : cs.filter isAnchorCandidate ≠ [] := by
      intro he
      rw [hcands, he] at hofs
      simp [spanSum] at hofs
    unfold findBestAnchorCandidateIndexForOffset
    rw [hcands] at hofs ⊢
    rw [if_neg (by simp [List.isEmpty_iff, hne])]
    obtain ⟨j, hj, heq, hlo, hhi⟩ :=
      findIdxAux_lt_total (cs.filter isAnchorCandidate) 0 0 offset (by omega) (by omega)
    exact ⟨j, hj, by omega, by omega, by omega⟩
  · intro cid k hk
    simp only [insertCommentAnchorIntoParagraph]
    rw [insertAnchorAux_none cid cs k hk]

/-- Witness for C10 on a paragraph with no eligible children and an
out-of-range insertion index. -/
theorem c10_witness :
    (getDirectChildAnchorCandidates (XNode.elem wNS "p" [] [XNode.elem wNS "pPr" [] []]) = []) ∧
    (findBestAnchorCandidateIndexForOffset
      (XNode.elem wNS "p" [] [XNode.elem wNS "pPr" [] []]) 7 = 0) ∧
    (([XNode.elem wNS "pPr" [] []].filter isAnchorCandidate).length ≤ 0) ∧
    (insertCommentAnchorIntoParagraph (XNode.elem wNS "p" []
        [XNode.elem wNS "pPr" [] []]) 2 0 =
      XNode.elem wNS "p" [] ([XNode.elem wNS "pPr" [] []] ++
        [commentRangeStartNode 2, createSpaceRun, commentRangeEndNode 2,
          createCommentReferenceRun 2])) := by
  refine ⟨rfl, ?_, ?_, ?_⟩
  · exact (c10_offset_mapping_total wNS "p" [] [XNode.elem wNS "pPr" [] []] 7).2.1 rfl
  · show (0 : Nat) ≤ 0
    omega
  · exact (c10_offset_mapping_total wNS "p" [] [XNode.elem wNS "pPr" [] []] 7).2.2.2.2.2 2 0
      (by show (0 : Nat) ≤ 0; omega)

/-- Counterexample for C3 — on input " a" the normalizer returns a one-char
normalized string but a two-entry index map: the trimmed leading space's map
entry is not dropped, and entry 0 points at the space (offset 0), not at the
character that produced normalizedText[0] (offset 1). -/
theorem c3_counterexample :
    (normalizeForFuzzyIndexing [' ', 'a']).1 = ['a'] ∧
    (normalizeForFuzzyIndexing [' ', 'a']).2 = [0, 1] ∧
    (normalizeForFuzzyIndexing [' ', 'a']).2.length ≠
      (normalizeForFuzzyIndexing [' ', 'a']).1.length ∧
    (normalizeForFuzzyIndexing [' ', 'a']).2[0]? ≠ some 1 := by
  refine ⟨rfl, rfl, by decide, by decide⟩

/-- Claim C3 (amended) — the index map corresponds entry-by-entry to the
normalized text *before* the final trim: equal lengths, strictly increasing
original offsets, each normalized character produced by the original character
at its map entry.  The returned string is the pre-trim string with whitespace
trimmed from both ends, while the map is returned unadjusted, so the
correspondence for the returned string holds only after shifting by the number
of trimmed leading spaces (at most one). -/
theorem c3_normalizer_map (t : List Char) :
    ((normalizeForFuzzyIndexing t).1 = trimBoth (normLoop t 0 false).1 ∧
      (normalizeForFuzzyIndexing t).2 = (normLoop t 0 false).2) ∧
    (normLoop t 0 false).2.length = (normLoop t 0 false).1.length ∧
    List.Chain' (fun a b => a < b) (normLoop t 0 false).2 ∧
    (∀ j m : Nat, (normLoop t 0 false).2[j]? = some m →
      ∃ c, t[m]? = some c ∧ (normLoop t 0 false).1[j]? = some (normCharOf c)) ∧
    (∃ k, k ≤ 1 ∧ k + (normalizeForFuzzyIndexing t).1.length ≤ (normLoop t 0 false).1.length ∧
      (normalizeForFuzzyIndexing t).1 =
        (((normLoop t 0 false).1.drop k).take (normalizeForFuzzyIndexing t).1.length)) := by
  refine ⟨⟨rfl, rfl⟩, (normLoop_lengths t 0 false).symm, normLoop_chain_lt t 0 false, ?_, ?_⟩
  · intro j m hm
    obtain ⟨c, hc, -, hn⟩ := normLoop_corr t 0 false j m hm
    refine ⟨c, ?_, hn⟩
    simpa using hc
  · have hchain := (normLoop_chain_sp t 0 false).1
    have hws : ∀ x ∈ (normLoop t 0 false).1, isWsChar x = true → x = ' ' :=
      fun x hx => normLoop_all_ws_space t 0 false x hx
    have hk1 : ((normLoop t 0 false).1.takeWhile isWsChar).length ≤ 1 :=
      takeWhile_ws_length_le_one _ hchain hws
    have hsplit : (normLoop t 0 false).1.takeWhile isWsChar ++
        (normLoop t 0 false).1.dropWhile isWsChar = (normLoop t 0 false).1 :=
      List.takeWhile_append_dropWhile isWsChar _
    have hdw : (normLoop t 0 false).1.drop
        (((normLoop t 0 false).1.takeWhile isWsChar).length) =
        (normLoop t 0 false).1.dropWhile isWsChar := by
      have hh := List.drop_left ((normLoop t 0 false).1.takeWhile isWsChar)
        ((normLoop t 0 false).1.dropWhile isWsChar)
      rw [hsplit] at hh
      exact hh
    obtain ⟨s, hs, -⟩ := dropTrail_spec ((normLoop t 0 false).1.dropWhile isWsChar)
    have hnrm : (normalizeForFuzzyIndexing t).1 =
        dropTrail ((normLoop t 0 false).1.dropWhile isWsChar) := rfl
    refine ⟨((normLoop t 0 false).1.takeWhile isWsChar).length, hk1, ?_, ?_⟩
    · have hlen1 := congrArg List.length hsplit
      have hlen2 := congrArg List.length hs
      simp only [List.length_append] at hlen1 hlen2
      rw [hnrm]
      omega
    · rw [hdw, hnrm]
      have hh := List.take_left (dropTrail ((normLoop t 0 false).1.dropWhile isWsChar)) s
      rw [← hs] at hh
      exact hh.symm

/-- Witness for the C3 correspondence at a concrete mixed input. -/
theorem c3_witness :
    ((normLoop [' ', 'A', ' ', ' ', 'b'] 0 false).2[1]? = some 1) ∧
    (∃ c, ([' ', 'A', ' ', ' ', 'b'] : List Char)[1]? = some c ∧
      (normLoop [' ', 'A', ' ', ' ', 'b'] 0 false).1[1]? = some (normCharOf c)) :=
  ⟨by decide, (c3_normalizer_map [' ', 'A', ' ', ' ', 'b']).2.2.2.1 1 1 (by decide)⟩

/-- Claim C4 — the position search tries the normalized-substring search, then
the ≥ 12 character normalized-anchor-head search, then the fuzzy window scan,
in this order; the first success fixes startMethod; the offset is null exactly
in the "none" case; a matched record is merged regardless, and a null offset
falls back to offset 0 for node selection. -/
theorem c4_locator_stages (pr : List Char → List Char → Nat) (t a : List Char) :
    ((locateStart pr t a).1 = "substring" ↔
      (normalizeForFuzzySearch a ≠ [] ∧
        includesL (normalizeForFuzzyIndexing t).1 (normalizeForFuzzySearch a) = true)) ∧
    ((locateStart pr t a).1 = "prefix" ↔
      (¬(normalizeForFuzzySearch a ≠ [] ∧
          includesL (normalizeForFuzzyIndexing t).1 (normalizeForFuzzySearch a) = true) ∧
        trimBoth ((normalizeForFuzzySearch a).take 80) ≠ [] ∧
        includesL (normalizeForFuzzyIndexing t).1
          (trimBoth ((normalizeForFuzzySearch a).take 80)) = true)) ∧
    ((locateStart pr t a).1 = "prefix" →
      12 ≤ (trimBoth ((normalizeForFuzzySearch a).take 80)).length) ∧
    (¬(normalizeForFuzzySearch a ≠ [] ∧
        includesL (normalizeForFuzzyIndexing t).1 (normalizeForFuzzySearch a) = true) →
      ¬(trimBoth ((normalizeForFuzzySearch a).take 80) ≠ [] ∧
        includesL (normalizeForFuzzyIndexing t).1
          (trimBoth ((normalizeForFuzzySearch a).take 80)) = true) →
      normalizeForFuzzySearch a ≠ [] →
      findApproxMatchStartIndex pr t a =
        fuzzyStage pr (normalizeForFuzzyIndexing t).1 (normalizeForFuzzyIndexing t).2
          (normalizeForFuzzySearch a)) ∧
    ((locateStart pr t a).1 = "fuzzy" ↔
      (¬(normalizeForFuzzySearch a ≠ [] ∧
          includesL (normalizeForFuzzyIndexing t).1 (normalizeForFuzzySearch a) = true) ∧
        ¬(trimBoth ((normalizeForFuzzySearch a).take 80) ≠ [] ∧
          includesL (normalizeForFuzzyIndexing t).1
            (trimBoth ((normalizeForFuzzySearch a).take 80)) = true) ∧
        normalizeForFuzzySearch a ≠ [] ∧
        (findApproxMatchStartIndex pr t a).isSome = true)) ∧
    ((locateStart pr t a).2 = none ↔ (locateStart pr t a).1 = "none") ∧
    (∀ (texts : List (List Char)) (nowIso : String) (s : LoopState) (i : Nat)
        (item : MergeItem) (para : XNode),
      0 ≤ (findBestParagraphMatch pr s.paragraphs texts (item.anchor_text.getD [])).bestIndex →
      s.paragraphs[(findBestParagraphMatch pr s.paragraphs texts
        (item.anchor_text.getD [])).bestIndex.toNat]? = some para →
      ((mergeStep pr texts nowIso s i item).mergedCount = s.mergedCount + 1 ∧
        ∃ d0 : Detail, (mergeStep pr texts nowIso s i item).details = s.details ++ [d0] ∧
          d0.startMethod = (locateStart pr (texts.getD (findBestParagraphMatch pr s.paragraphs
            texts (item.anchor_text.getD [])).bestIndex.toNat [])
            (item.anchor_text.getD [])).1 ∧
          d0.approxStart = (locateStart pr (texts.getD (findBestParagraphMatch pr s.paragraphs
            texts (item.anchor_text.getD [])).bestIndex.toNat [])
            (item.anchor_text.getD [])).2 ∧
          ((locateStart pr (texts.getD (findBestParagraphMatch pr s.paragraphs texts
              (item.anchor_text.getD [])).bestIndex.toNat [])
              (item.anchor_text.getD [])).2 = none →
            d0.anchorNodeIndex = nextFreeIdx
              ((mapGetUsed s.usedMap (findBestParagraphMatch pr s.paragraphs texts
                (item.anchor_text.getD [])).bestIndex.toNat).getD [])
              (findBestAnchorCandidateIndexForOffset para 0)))) := by
  have hstep : ∀ (texts : List (List Char)) (nowIso : String) (s : LoopState) (i : Nat)
      (item : MergeItem) (para : XNode),
      0 ≤ (findBestParagraphMatch pr s.paragraphs texts (item.anchor_text.getD [])).bestIndex →
      s.paragraphs[(findBestParagraphMatch pr s.paragraphs texts
        (item.anchor_text.getD [])).bestIndex.toNat]? = some para →
      ((mergeStep pr texts nowIso s i item).mergedCount = s.mergedCount + 1 ∧
        ∃ d0 : Detail, (mergeStep pr texts nowIso s i item).details = s.details ++ [d0] ∧
          d0.startMethod = (locateStart pr (texts.getD (findBestParagraphMatch pr s.paragraphs
            texts (item.anchor_text.getD [])).bestIndex.toNat [])
            (item.anchor_text.getD [])).1 ∧
          d0.approxStart = (locateStart pr (texts.getD (findBestParagraphMatch pr s.paragraphs
            texts (item.anchor_text.getD [])).bestIndex.toNat [])
            (item.anchor_text.getD [])).2 ∧
          ((locateStart pr (texts.getD (findBestParagraphMatch pr s.paragraphs texts
              (item.anchor_text.getD [])).bestIndex.toNat [])
              (item.anchor_text.getD [])).2 = none →
            d0.anchorNodeIndex = nextFreeIdx
              ((mapGetUsed s.usedMap (findBestParagraphMatch pr s.paragraphs texts
                (item.anchor_text.getD [])).bestIndex.toNat).getD [])
              (findBestAnchorCandidateIndexForOffset para 0))) := by
    intro texts nowIso s i item para hge hp
    have heq := mergeStep_hit pr texts nowIso s i item para (by omega) hp
    rw [heq]
    refine ⟨mergeStepCore_mergedCount pr texts nowIso s i item _ para, ?_⟩
    obtain ⟨d0, hd0, -, hd0a, hd0s, hd0p⟩ :=
      mergeStepCore_details_ex pr texts nowIso s i item
        (findBestParagraphMatch pr s.paragraphs texts (item.anchor_text.getD [])) para
    refine ⟨d0, hd0, hd0s, hd0p, ?_⟩
    intro hnone
    rw [hd0a]
    unfold mergeAnchorIdx
    rw [hnone]
    rfl
  by_cases hsub : normalizeForFuzzySearch a ≠ [] ∧
      includesL (normalizeForFuzzyIndexing t).1 (normalizeForFuzzySearch a) = true
  · obtain ⟨heq, v, hv⟩ := locateStart_substring_case pr t a hsub
    rw [heq]
    refine ⟨?_, ?_, ?_, ?_, ?_, ?_, hstep⟩
    · simp only []
      exact ⟨fun _ => hsub, fun _ => trivial⟩
    · simp only []
      constructor
      · intro h; simp at h
      · intro ⟨h, _⟩
        exact absurd hsub h
    · intro h; simp at h
    · intro h
      exact absurd hsub h
    · simp only []
      constructor
      · intro h; simp at h
      · intro ⟨h, _⟩
        exact absurd hsub h
    · simp only [hv]
      constructor
      · intro h; simp at h
      · intro h; simp at h
  · by_cases hpc : trimBoth ((normalizeForFuzzySearch a).take 80) ≠ [] ∧
        includesL (normalizeForFuzzyIndexing t).1
          (trimBoth ((normalizeForFuzzySearch a).take 80)) = true
    · obtain ⟨heq, v, hv⟩ := locateStart_pfx_case pr t a hsub hpc
      rw [heq]
      refine ⟨?_, ?_, ?_, ?_, ?_, ?_, hstep⟩
      · simp only []
        constructor
        · intro h; simp at h
        · intro h
          exact absurd h hsub
      · simp only []
        exact ⟨fun _ => ⟨hsub, hpc⟩, fun _ => trivial⟩
      · intro _
        exact pfx_hit_length t a hsub hpc.1 hpc.2
      · intro _ hcontra _
        exact absurd hpc hcontra
      · simp only []
        constructor
        · intro h; simp at h
        · intro ⟨_, h, _⟩
          exact absurd hpc h
      · simp only [hv]
        constructor
        · intro h; simp at h
        · intro h; simp at h
    · by_cases hne : normalizeForFuzzySearch a = []
      · rw [locateStart_empty_case pr t a hne]
        refine ⟨?_, ?_, ?_, ?_, ?_, ?_, hstep⟩
        · simp only []
          constructor
          · intro h; simp at h
          · intro ⟨h, _⟩
            exact absurd hne h
        · simp only []
          constructor
          · intro h; simp at h
          · intro h
            exact absurd h.2 hpc
        · intro h; simp at h
        · intro _ _ h
          exact absurd hne h
        · simp only []
          constructor
          · intro h; simp at h
          · intro ⟨_, _, h, _⟩
            exact absurd hne h
        · simp
      · have hninc : includesL (normalizeForFuzzyIndexing t).1
            (normalizeForFuzzySearch a) = false := by
          cases hi : includesL (normalizeForFuzzyIndexing t).1 (normalizeForFuzzySearch a) with
          | false => rfl
          | true => exact absurd ⟨hne, hi⟩ hsub
        have hfz := findApprox_fuzzy pr t a hne hninc hpc
        rw [locateStart_fuzzy_case pr t a hne hsub hpc]
        refine ⟨?_, ?_, ?_, fun _ _ _ => hfz, ?_, ?_, hstep⟩
        · cases hfs : fuzzyStage pr (normalizeForFuzzyIndexing t).1
              (normalizeForFuzzyIndexing t).2 (normalizeForFuzzySearch a) with
          | some v =>
            simp only [hfs]
            constructor
            · intro h; simp at h
            · intro h; exact absurd h hsub
          | none =>
            simp only [hfs]
            constructor
            · intro h; simp at h
            · intro h; exact absurd h hsub
        · cases hfs : fuzzyStage pr (normalizeForFuzzyIndexing t).1
              (normalizeForFuzzyIndexing t).2 (normalizeForFuzzySearch a) with
          | some v =>
            simp only [hfs]
            constructor
            · intro h; simp at h
            · intro ⟨_, h⟩; exact absurd h hpc
          | none =>
            simp only [hfs]
            constructor
            · intro h; simp at h
            · intro ⟨_, h⟩; exact absurd h hpc
        · cases hfs : fuzzyStage pr (normalizeForFuzzyIndexing t).1
              (normalizeForFuzzyIndexing t).2 (normalizeForFuzzySearch a) with
          | some v =>
            simp only [hfs]
            intro h; simp at h
          | none =>
            simp only [hfs]
            intro h; simp at h
        · cases hfs : fuzzyStage pr (normalizeForFuzzyIndexing t).1
              (normalizeForFuzzyIndexing t).2 (normalizeForFuzzySearch a) with
          | some v =>
            simp only [hfs]
            constructor
            · intro _
              refine ⟨hsub, hpc, hne, ?_⟩
              rw [hfz, hfs]
              rfl
            · intro _
              trivial
          | none =>
            simp only [hfs]
            constructor
            · intro h; simp at h
            · intro ⟨_, _, _, h⟩
              rw [hfz, hfs] at h
              simp at h
        · cases hfs : fuzzyStage pr (normalizeForFuzzyIndexing t).1
              (normalizeForFuzzyIndexing t).2 (normalizeForFuzzySearch a) with
          | some v =>
            simp only [hfs]
            constructor
            · intro h; simp at h
            · intro h; simp at h
          | none =>
            simp only [hfs]

/-- Witness for C4 at a concrete paragraph/anchor pair matched by the
normalized-substring stage. -/
theorem c4_witness :
    (locateStart (fun _ _ => 0) "hello world".toList "world".toList).1 = "substring" :=
  (c4_locator_stages (fun _ _ => 0) "hello world".toList "world".toList).1.mpr
    ⟨by decide, by decide⟩

/-- Claim C6 — a record whose anchor is empty or whitespace-only is scored
(-1, 0) by the paragraph matcher and the loop iteration leaves the state
untouched: no comment node, no document mutation, no merged count, no details
entry, and no exception (the step is a total function returning the state). -/
theorem c6_whitespace_anchor_skipped (pr : List Char → List Char → Nat)
    (texts : List (List Char)) (nowIso : String) (s : LoopState) (i : Nat)
    (item : MergeItem) (h : ∀ c ∈ item.anchor_text.getD [], isWsChar c = true) :
    findBestParagraphMatch pr s.paragraphs texts (item.anchor_text.getD []) =
      ⟨-1, 0, "partial_ratio"⟩ ∧
    mergeStep pr texts nowIso s i item = s := by
  have hclean := cleanAnchorText_all_ws _ h
  exact ⟨findBest_empty pr s.paragraphs texts _ hclean,
    mergeStep_empty_anchor pr texts nowIso s i item hclean⟩

/-- Witness for C6 at a concrete whitespace-only record. -/
theorem c6_witness :
    (∀ c ∈ (MergeItem.mk (some [' ', '\t']) none none none).anchor_text.getD [],
      isWsChar c = true) ∧
    (findBestParagraphMatch (fun _ _ => 0)
        (⟨[XNode.elem wNS "p" [] []], XNode.elem wNS "comments" [] [], 1, 0, [], []⟩ :
          LoopState).paragraphs [['x']]
        ((MergeItem.mk (some [' ', '\t']) none none none).anchor_text.getD []) =
      ⟨-1, 0, "partial_ratio"⟩ ∧
    mergeStep (fun _ _ => 0) [['x']] ""
        (⟨[XNode.elem wNS "p" [] []], XNode.elem wNS "comments" [] [], 1, 0, [], []⟩ :
          LoopState) 0 (MergeItem.mk (some [' ', '\t']) none none none) =
      (⟨[XNode.elem wNS "p" [] []], XNode.elem wNS "comments" [] [], 1, 0, [], []⟩ :
          LoopState)) :=
  ⟨by decide, c6_whitespace_anchor_skipped (fun _ _ => 0) [['x']] ""
    (⟨[XNode.elem wNS "p" [] []], XNode.elem wNS "comments" [] [], 1, 0, [], []⟩ : LoopState)
    0 (MergeItem.mk (some [' ', '\t']) none none none) (by decide)⟩

/-- Claim C2 — seeding the counter from `getMaxCommentId + 1` once at run start
and incrementing per inserted comment, the run appends exactly `mergedCount`
comment nodes to the comments root, their `w:id` attributes are the consecutive
integers starting at `max + 1`, all of them strictly exceed the pre-existing
maximum id, and they are pairwise distinct. -/
theorem c2_comment_ids (pr : List Char → List Char → Nat) (paragraphs : List XNode)
    (attrs : List (String × String)) (cs : List XNode) (nowIso : String)
    (items : List MergeItem) :
    ∃ news : List XNode,
      (runMerge pr paragraphs (XNode.elem wNS "comments" attrs cs) nowIso items).commentsDoc =
        XNode.elem wNS "comments" attrs (cs ++ news) ∧
      news.length =
        (runMerge pr paragraphs (XNode.elem wNS "comments" attrs cs) nowIso items).mergedCount ∧
      (runMerge pr paragraphs (XNode.elem wNS "comments" attrs cs) nowIso items).nextCommentId =
        getMaxCommentId (XNode.elem wNS "comments" attrs cs) + 1 + (news.length : Int) ∧
      news.map (fun n => getXAttr n "w:id") =
        (List.range news.length).map (fun (k : Nat) =>
          some (toString (getMaxCommentId (XNode.elem wNS "comments" attrs cs) + 1 + (k : Int)))) ∧
      ((List.range news.length).map (fun (k : Nat) =>
          getMaxCommentId (XNode.elem wNS "comments" attrs cs) + 1 + (k : Int))).Pairwise
        (fun v1 v2 => v1 ≠ v2) ∧
      (∀ v ∈ (List.range news.length).map (fun (k : Nat) =>
          getMaxCommentId (XNode.elem wNS "comments" attrs cs) + 1 + (k : Int)),
        getMaxCommentId (XNode.elem wNS "comments" attrs cs) < v) := by
  obtain ⟨m, news, h1, h2, h3, h4, -⟩ := mergeLoopAux_comments pr
    (paragraphs.map getParagraphText) nowIso items 0
    ⟨paragraphs, XNode.elem wNS "comments" attrs cs,
      getMaxCommentId (XNode.elem wNS "comments" attrs cs) + 1, 0, [], []⟩ attrs cs rfl
  have h2' : (mergeLoopAux pr (paragraphs.map getParagraphText) nowIso items 0
      ⟨paragraphs, XNode.elem wNS "comments" attrs cs,
        getMaxCommentId (XNode.elem wNS "comments" attrs cs) + 1, 0, [], []⟩).mergedCount =
      0 + m := h2
  have h3' : (mergeLoopAux pr (paragraphs.map getParagraphText) nowIso items 0
      ⟨paragraphs, XNode.elem wNS "comments" attrs cs,
        getMaxCommentId (XNode.elem wNS "comments" attrs cs) + 1, 0, [], []⟩).nextCommentId =
      getMaxCommentId (XNode.elem wNS "comments" attrs cs) + 1 + (m : Int) := h3
  have h4' : news.map (fun n => getXAttr n "w:id") =
      (List.range m).map (fun (k : Nat) =>
        some (toString (getMaxCommentId (XNode.elem wNS "comments" attrs cs) + 1 + (k : Int)))) := h4
  have hlen : news.length = m := by
    have hc := congrArg List.length h4'
    simpa using hc
  have hrun : runMerge pr paragraphs (XNode.elem wNS "comments" attrs cs) nowIso items =
      mergeLoopAux pr (paragraphs.map getParagraphText) nowIso items 0
        ⟨paragraphs, XNode.elem wNS "comments" attrs cs,
          getMaxCommentId (XNode.elem wNS "comments" attrs cs) + 1, 0, [], []⟩ := rfl
  rw [hrun]
  refine ⟨news, h1, ?_, ?_, ?_, ?_, ?_⟩
  · rw [h2']
    omega
  · rw [h3', hlen]
  · rw [hlen]
    exact h4'
  · exact List.Nodup.map (fun a b hab => by omega) (List.nodup_range _)
  · intro v hv
    rw [List.mem_map] at hv
    obtain ⟨k, -, rfl⟩ := hv
    omega

/-- Claim C5 — two merged records whose anchors best-match the same paragraph
record different anchor-node indices: the per-paragraph used set is threaded
through the loop and the chosen index is linearly probed past it. -/
theorem c5_anchor_collision (pr : List Char → List Char → Nat) (paragraphs : List XNode)
    (commentsDoc : XNode) (nowIso : String) (items : List MergeItem)
    (j1 j2 : Nat) (d1 d2 : Detail) (hj : j1 < j2)
    (h1 : (runMerge pr paragraphs commentsDoc nowIso items).details[j1]? = some d1)
    (h2 : (runMerge pr paragraphs commentsDoc nowIso items).details[j2]? = some d2)
    (hsame : (findBestParagraphMatch pr paragraphs (paragraphs.map getParagraphText)
        ((items.getD d1.index defaultMergeItem).anchor_text.getD [])).bestIndex =
      (findBestParagraphMatch pr paragraphs (paragraphs.map getParagraphText)
        ((items.getD d2.index defaultMergeItem).anchor_text.getD [])).bestIndex) :
    d1.anchorNodeIndex ≠ d2.anchorNodeIndex := by
  have hrun : runMerge pr paragraphs commentsDoc nowIso items =
      mergeLoopAux pr (paragraphs.map getParagraphText) nowIso items 0
        ⟨paragraphs, commentsDoc, getMaxCommentId commentsDoc + 1, 0, [], []⟩ := rfl
  obtain ⟨-, hpw⟩ := mergeLoopAux_distinct pr (paragraphs.map getParagraphText) nowIso
    paragraphs (fun i => (items.getD i defaultMergeItem).anchor_text.getD [])
    items 0 ⟨paragraphs, commentsDoc, getMaxCommentId commentsDoc + 1, 0, [], []⟩
    rfl (fun j hj' => by simp) (by simp) (by simp)
  rw [hrun] at h1 h2
  have hl1 : j1 < (mergeLoopAux pr (paragraphs.map getParagraphText) nowIso items 0
      ⟨paragraphs, commentsDoc, getMaxCommentId commentsDoc + 1, 0, [], []⟩).details.length := by
    by_contra hge
    push_neg at hge
    rw [List.getElem?_eq_none hge] at h1
    exact absurd h1 (by simp)
  have hl2 : j2 < (mergeLoopAux pr (paragraphs.map getParagraphText) nowIso items 0
      ⟨paragraphs, commentsDoc, getMaxCommentId commentsDoc + 1, 0, [], []⟩).details.length := by
    by_contra hge
    push_neg at hge
    rw [List.getElem?_eq_none hge] at h2
    exact absurd h2 (by simp)
  rw [List.getElem?_eq_getElem hl1] at h1
  rw [List.getElem?_eq_getElem hl2] at h2
  have he1 := Option.some.inj h1
  have he2 := Option.some.inj h2
  have hR := List.pairwise_iff_getElem.mp hpw j1 j2 hl1 hl2 hj
  rw [he1, he2] at hR
  exact hR hsame

/-- One paragraph holding the text "ab", used by the C5 witness run. -/
def c5para : XNode :=
  XNode.elem wNS "p" [] [XNode.elem wNS "t" [] [XNode.txt ['a', 'b']]]

/-- Two records with the identical anchor "ab", used by the C5 witness run. -/
def c5items : List MergeItem :=
  [⟨some ['a', 'b'], none, none, none⟩, ⟨some ['a', 'b'], none, none, none⟩]

set_option maxRecDepth 100000 in
/-- Witness for C5: a concrete run in which both records best-match paragraph 0
and receive the distinct anchor-node indices 0 and 1. -/
theorem c5_witness :
    (0 : Nat) < 1 ∧
    (runMerge (fun _ _ => 100) [c5para] (XNode.elem wNS "comments" [] [])
        "" c5items).details[0]? =
      some ⟨0, 100, ['a', 'b'], ['a', 'b'], "partial_ratio", some 0, 0, "substring"⟩ ∧
    (runMerge (fun _ _ => 100) [c5para] (XNode.elem wNS "comments" [] [])
        "" c5items).details[1]? =
      some ⟨1, 100, ['a', 'b'], ['a', 'b'], "partial_ratio", some 0, 1, "substring"⟩ ∧
    (⟨0, 100, ['a', 'b'], ['a', 'b'], "partial_ratio", some 0, 0, "substring"⟩ :
        Detail).anchorNodeIndex ≠
      (⟨1, 100, ['a', 'b'], ['a', 'b'], "partial_ratio", some 0, 1, "substring"⟩ :
        Detail).anchorNodeIndex :=
  ⟨by decide, by rfl, by rfl,
    c5_anchor_collision (fun _ _ => 100) [c5para] (XNode.elem wNS "comments" [] []) "" c5items
      0 1
      ⟨0, 100, ['a', 'b'], ['a', 'b'], "partial_ratio", some 0, 0, "substring"⟩
      ⟨1, 100, ['a', 'b'], ['a', 'b'], "partial_ratio", some 0, 1, "substring"⟩
      (by decide) (by rfl) (by rfl) (by rfl)⟩

/-- The fuzzy-scan window length as the spec words it: `clamp(anchorLength, 80, 260)`. -/
def specScanWindowLen (anchorLen : Nat) : Nat := min (max anchorLen 80) 260

/-- Claim C7 counterexample — for a 230-character normalized anchor the code
takes the window length from the capped 220-character needle, giving 220, while
the spec formula `clamp(anchorLength, 80, 260)` gives 230. -/
theorem c7_counterexample :
    scanWindowLen (List.replicate 230 'x') = 220 ∧
    specScanWindowLen (List.replicate 230 'x').length = 230 ∧
    scanWindowLen (List.replicate 230 'x') ≠
      specScanWindowLen (List.replicate 230 'x').length := by
  have hlen : (List.replicate 230 'x').length = 230 := by
    rw [List.length_replicate]
  refine ⟨?_, ?_, ?_⟩
  · rw [scanWindowLen_eq, hlen]
    decide
  · unfold specScanWindowLen
    rw [hlen]
    decide
  · rw [scanWindowLen_eq, hlen]
    unfold specScanWindowLen
    decide

/-- In a scan segment where no window reaches the 98 early-exit threshold and
no window is empty, the running best only grows and ends up at least every
visited window's score: the best-scoring window is kept. -/
theorem scanGo_dominates (pr : List Char → List Char → Nat) (nP sn : List Char) (wl : Nat) :
    ∀ (ps : List Nat) (b : Nat × Int),
      (∀ p ∈ ps, windowAt nP wl p ≠ []) →
      (∀ p ∈ ps, pr sn (windowAt nP wl p) < 98) →
      b.1 ≤ (scanGo pr nP sn wl ps b).1 ∧
      (∀ p ∈ ps, pr sn (windowAt nP wl p) ≤ (scanGo pr nP sn wl ps b).1) := by
  intro ps
  induction ps with
  | nil =>
    intro b _ _
    exact ⟨le_refl _, by simp⟩
  | cons q rest ih =>
    intro b hw h98
    have hwq : windowAt nP wl q ≠ [] := hw q (by simp)
    have hsq : pr sn (windowAt nP wl q) < 98 := h98 q (by simp)
    have hwr : ∀ p ∈ rest, windowAt nP wl p ≠ [] := fun p hp => hw p (by simp [hp])
    have h98r : ∀ p ∈ rest, pr sn (windowAt nP wl p) < 98 := fun p hp => h98 p (by simp [hp])
    simp only [scanGo, if_neg hwq]
    by_cases himp : b.1 < pr sn (windowAt nP wl q)
    · rw [if_pos himp, if_neg (by omega)]
      obtain ⟨hle, hall⟩ := ih (pr sn (windowAt nP wl q), (q : Int)) hwr h98r
      have hle' : pr sn (windowAt nP wl q) ≤
          (scanGo pr nP sn wl rest (pr sn (windowAt nP wl q), (q : Int))).1 := hle
      refine ⟨by omega, ?_⟩
      intro p hp
      rcases List.mem_cons.mp hp with he | hmem
      · subst he
        exact hle'
      · exact hall p hmem
    · rw [if_neg himp]
      obtain ⟨hle, hall⟩ := ih b hwr h98r
      refine ⟨hle, ?_⟩
      intro p hp
      rcases List.mem_cons.mp hp with he | hmem
      · subst he
        omega
      · exact hall p hmem

/-- The ≥ 98 early exit at an arbitrary position: as long as the running best
is still below 98 and every earlier window is non-empty and scores below 98,
the scan stops at the first position whose window scores at least 98 and
returns exactly that window's score and start, ignoring the remaining
positions. -/
theorem scanGo_first98 (pr : List Char → List Char → Nat) (nP sn : List Char) (wl : Nat)
    (pstar : Nat) (ps2 : List Nat) (hw : windowAt nP wl pstar ≠ [])
    (h98 : 98 ≤ pr sn (windowAt nP wl pstar)) :
    ∀ (ps1 : List Nat) (b : Nat × Int), b.1 < 98 →
      (∀ p ∈ ps1, windowAt nP wl p ≠ []) →
      (∀ p ∈ ps1, pr sn (windowAt nP wl p) < 98) →
      scanGo pr nP sn wl (ps1 ++ pstar :: ps2) b =
        (pr sn (windowAt nP wl pstar), (pstar : Int)) := by
  intro ps1
  induction ps1 with
  | nil =>
    intro b hb _ _
    rw [List.nil_append]
    exact scanGo_head_98 pr nP sn wl pstar ps2 b hw (by omega) h98
  | cons q rest ih =>
    intro b hb hws h98s
    have hwq : windowAt nP wl q ≠ [] := hws q (by simp)
    have hsq : pr sn (windowAt nP wl q) < 98 := h98s q (by simp)
    have hwr : ∀ p ∈ rest, windowAt nP wl p ≠ [] := fun p hp => hws p (by simp [hp])
    have h98r : ∀ p ∈ rest, pr sn (windowAt nP wl p) < 98 := fun p hp => h98s p (by simp [hp])
    rw [List.cons_append]
    simp only [scanGo, if_neg hwq]
    by_cases himp : b.1 < pr sn (windowAt nP wl q)
    · rw [if_pos himp, if_neg (by omega)]
      exact ih (pr sn (windowAt nP wl q), (q : Int)) (by simpa using hsq) hwr h98r
    · rw [if_neg himp]
      exact ih b hb hwr h98r

/-- When no visited window reaches the early-exit threshold, the offset the
fuzzy scan accepts comes from a best-scoring window: it scores at least 60 and
at least as much as every visited window. -/
theorem fuzzyStage_best_kept (pr : List Char → List Char → Nat) (nP : List Char)
    (map : List Nat) (nA : List Char)
    (hno98 : ∀ q, q % 5 = 0 → q < nP.length →
      pr (scanNeedleOf nA) (windowAt nP (scanWindowLen nA) q) < 98)
    (o : Nat) (h : fuzzyStage pr nP map nA = some o) :
    ∃ pos, pos % 5 = 0 ∧ pos < nP.length ∧
      60 ≤ pr (scanNeedleOf nA) (windowAt nP (scanWindowLen nA) pos) ∧
      (∀ q, q % 5 = 0 → q < nP.length →
        pr (scanNeedleOf nA) (windowAt nP (scanWindowLen nA) q) ≤
          pr (scanNeedleOf nA) (windowAt nP (scanWindowLen nA) pos)) ∧
      map[pos]? = some o := by
  rw [fuzzyStage_def] at h
  set best := scanGo pr nP (scanNeedleOf nA) (scanWindowLen nA)
    (scanPositions nP.length) (0, -1) with hbest
  have hprov := scanGo_provenance pr nP (scanNeedleOf nA) (scanWindowLen nA)
    (scanPositions nP.length) (0, -1)
  rw [← hbest] at hprov
  by_cases hcond : 0 ≤ best.2 ∧ 60 ≤ best.1
  · rw [if_pos hcond] at h
    rcases hprov with hb | ⟨p, hp, hwp, hb⟩
    · rw [hb] at hcond
      simp at hcond
    · have hmem := (mem_scanPositions nP.length p).mp hp
      have hplt : p < nP.length := by
        by_contra hge
        push_neg at hge
        exact hwp (windowAt_nil_of_ge hge)
      have hL : 0 < nP.length := by omega
      have hwall : ∀ q ∈ scanPositions nP.length,
          windowAt nP (scanWindowLen nA) q ≠ [] := by
        intro q hq
        have := (mem_scanPositions nP.length q).mp hq
        exact windowAt_ne_nil (by omega) (scanWindowLen_pos nA)
      have h98all : ∀ q ∈ scanPositions nP.length,
          pr (scanNeedleOf nA) (windowAt nP (scanWindowLen nA) q) < 98 := by
        intro q hq
        have hm := (mem_scanPositions nP.length q).mp hq
        exact hno98 q hm.1 (by omega)
      obtain ⟨-, hdom⟩ := scanGo_dominates pr nP (scanNeedleOf nA) (scanWindowLen nA)
        (scanPositions nP.length) (0, -1) hwall h98all
      rw [← hbest] at hdom
      have hbe : best.1 = pr (scanNeedleOf nA) (windowAt nP (scanWindowLen nA) p) := by
        rw [hb]
      refine ⟨p, hmem.1, hplt, by omega, ?_, ?_⟩
      · intro q hqmod hqlt
        have hq : q ∈ scanPositions nP.length :=
          (mem_scanPositions nP.length q).mpr ⟨hqmod, by omega⟩
        have := hdom q hq
        omega
      · rw [hb] at h
        simpa using h
  · rw [if_neg hcond] at h
    exact absurd h (by simp)

/-- The ≥ 98 early exit through `fuzzyStage`: the first visited position whose
window scores at least 98 is accepted immediately, whatever windows follow it. -/
theorem fuzzyStage_first98 (pr : List Char → List Char → Nat) (nP : List Char)
    (map : List Nat) (nA : List Char) (pos : Nat)
    (hmod : pos % 5 = 0) (hlt : pos < nP.length)
    (h98 : 98 ≤ pr (scanNeedleOf nA) (windowAt nP (scanWindowLen nA) pos))
    (hfirst : ∀ q, q % 5 = 0 → q < pos →
      pr (scanNeedleOf nA) (windowAt nP (scanWindowLen nA) q) < 98) :
    fuzzyStage pr nP map nA = map[pos]? := by
  have hL : 0 < nP.length := by omega
  have hw : windowAt nP (scanWindowLen nA) pos ≠ [] :=
    windowAt_ne_nil hlt (scanWindowLen_pos nA)
  set j := pos / 5 with hj
  set n := (nP.length - 1) / 5 + 1 with hn
  have hjn : j < n := by omega
  have happ := List.range'_append 0 j (n - j) 5
  rw [Nat.zero_add, Nat.sub_add_cancel (Nat.le_of_lt hjn)] at happ
  have h5j : 5 * j = pos := by omega
  obtain ⟨m, hm⟩ : ∃ m, n - j = m + 1 := ⟨n - j - 1, by omega⟩
  have hsplit : scanPositions nP.length =
      List.range' 0 j 5 ++ pos :: List.range' (pos + 5) m 5 := by
    unfold scanPositions
    rw [← hn, ← happ, h5j, hm, List.range'_succ]
  have hbest : scanGo pr nP (scanNeedleOf nA) (scanWindowLen nA)
      (scanPositions nP.length) (0, -1) =
      (pr (scanNeedleOf nA) (windowAt nP (scanWindowLen nA) pos), (pos : Int)) := by
    rw [hsplit]
    refine scanGo_first98 pr nP (scanNeedleOf nA) (scanWindowLen nA) pos _ hw h98
      (List.range' 0 j 5) (0, -1) (by decide) ?_ ?_
    · intro p hp
      obtain ⟨i, hi, rfl⟩ := List.mem_range'.mp hp
      exact windowAt_ne_nil (by omega) (scanWindowLen_pos nA)
    · intro p hp
      obtain ⟨i, hi, rfl⟩ := List.mem_range'.mp hp
      exact hfirst _ (by omega) (by omega)
  rw [fuzzyStage_def, hbest]
  rw [if_pos ⟨by simp, by simpa using (by omega :
    60 ≤ pr (scanNeedleOf nA) (windowAt nP (scanWindowLen nA) pos))⟩]
  simp

/-- Claim C7 (amended) — the fuzzy window scan uses the needle capped at the
first 220 normalized anchor characters and the window length
`clamp(min(anchorLength, 220), 80, 260)`; window starts step by 5; the scan
returns nothing iff every visited window scores under 60; any accepted offset
comes, through the position map, from a visited window scoring at least 60;
when no window reaches 98 the kept window is a best-scoring one (its score
dominates every visited window); and the scan exits early at the first
position whose window scores at least 98, accepting it immediately. -/
theorem c7_amended (pr : List Char → List Char → Nat) (nP : List Char)
    (map : List Nat) (nA : List Char) (hmap : nP.length ≤ map.length) :
    scanWindowLen nA = min (max (min nA.length 220) 80) 260 ∧
    scanNeedleOf nA = nA.take 220 ∧
    (fuzzyStage pr nP map nA = none ↔
      ∀ pos, pos % 5 = 0 → pos < nP.length →
        pr (scanNeedleOf nA) (windowAt nP (scanWindowLen nA) pos) < 60) ∧
    (∀ o : Nat, fuzzyStage pr nP map nA = some o →
      ∃ pos, pos % 5 = 0 ∧ pos < nP.length ∧
        60 ≤ pr (scanNeedleOf nA) (windowAt nP (scanWindowLen nA) pos) ∧
        map[pos]? = some o) ∧
    ((∀ q, q % 5 = 0 → q < nP.length →
        pr (scanNeedleOf nA) (windowAt nP (scanWindowLen nA) q) < 98) →
      ∀ o : Nat, fuzzyStage pr nP map nA = some o →
        ∃ pos, pos % 5 = 0 ∧ pos < nP.length ∧
          60 ≤ pr (scanNeedleOf nA) (windowAt nP (scanWindowLen nA) pos) ∧
          (∀ q, q % 5 = 0 → q < nP.length →
            pr (scanNeedleOf nA) (windowAt nP (scanWindowLen nA) q) ≤
              pr (scanNeedleOf nA) (windowAt nP (scanWindowLen nA) pos)) ∧
          map[pos]? = some o) ∧
    (∀ pos, pos % 5 = 0 → pos < nP.length →
      98 ≤ pr (scanNeedleOf nA) (windowAt nP (scanWindowLen nA) pos) →
      (∀ q, q % 5 = 0 → q < pos →
        pr (scanNeedleOf nA) (windowAt nP (scanWindowLen nA) q) < 98) →
      fuzzyStage pr nP map nA = map[pos]?) := by
  refine ⟨?_, ?_, fuzzyStage_none_iff pr nP map nA hmap,
    fun o => fuzzyStage_some_sound pr nP map nA o,
    fun hno98 o ho => fuzzyStage_best_kept pr nP map nA hno98 o ho,
    fun pos hmod hlt h98 hfirst => fuzzyStage_first98 pr nP map nA pos hmod hlt h98 hfirst⟩
  · rw [scanWindowLen_eq]
    omega
  · unfold scanNeedleOf
    by_cases h : 220 < nA.length
    · rw [if_pos h]
    · rw [if_neg h, List.take_of_length_le (by omega)]

/-- Witness for C7 (amended) at a concrete one-character paragraph and anchor. -/
theorem c7_witness :
    (['a'] : List Char).length ≤ ([0] : List Nat).length ∧
    (scanWindowLen ['a'] = min (max (min (['a'] : List Char).length 220) 80) 260 ∧
     scanNeedleOf ['a'] = (['a'] : List Char).take 220 ∧
     (fuzzyStage (fun _ _ => 0) ['a'] [0] ['a'] = none ↔
       ∀ pos, pos % 5 = 0 → pos < (['a'] : List Char).length → (0 : Nat) < 60) ∧
     (∀ o : Nat, fuzzyStage (fun _ _ => 0) ['a'] [0] ['a'] = some o →
       ∃ pos, pos % 5 = 0 ∧ pos < (['a'] : List Char).length ∧ (60 : Nat) ≤ 0 ∧
         ([0] : List Nat)[pos]? = some o) ∧
     ((∀ q, q % 5 = 0 → q < (['a'] : List Char).length → (0 : Nat) < 98) →
       ∀ o : Nat, fuzzyStage (fun _ _ => 0) ['a'] [0] ['a'] = some o →
         ∃ pos, pos % 5 = 0 ∧ pos < (['a'] : List Char).length ∧ (60 : Nat) ≤ 0 ∧
           (∀ q, q % 5 = 0 → q < (['a'] : List Char).length → (0 : Nat) ≤ (0 : Nat)) ∧
           ([0] : List Nat)[pos]? = some o) ∧
     (∀ pos, pos % 5 = 0 → pos < (['a'] : List Char).length → (98 : Nat) ≤ 0 →
       (∀ q, q % 5 = 0 → q < pos → (0 : Nat) < 98) →
       fuzzyStage (fun _ _ => 0) ['a'] [0] ['a'] = ([0] : List Nat)[pos]?)) :=
  ⟨by decide, c7_amended (fun _ _ => 0) ['a'] [0] ['a'] (by decide)⟩

/-- Claim C9 counterexample — a run over one record whose anchor fails to match
produces an empty details list: skipped records get no details entry, so the
report does not describe every record. -/
theorem c9_counterexample :
    (runMerge (fun _ _ => 0) [XNode.elem wNS "p" [] []] (XNode.elem wNS "comments" [] [])
        "" [(⟨some [], none, none, none⟩ : MergeItem)]).details.length = 0 ∧
    ([(⟨some [], none, none, none⟩ : MergeItem)]).length = 1 ∧
    (runMerge (fun _ _ => 0) [XNode.elem wNS "p" [] []] (XNode.elem wNS "comments" [] [])
        "" [(⟨some [], none, none, none⟩ : MergeItem)]).details.length ≠
      ([(⟨some [], none, none, none⟩ : MergeItem)]).length := by
  refine ⟨by rfl, by rfl, ?_⟩
  intro h
  rw [show (runMerge (fun _ _ => 0) [XNode.elem wNS "p" [] []]
      (XNode.elem wNS "comments" [] []) ""
      [(⟨some [], none, none, none⟩ : MergeItem)]).details.length = 0 from rfl] at h
  simp at h

/-- Claim C9 (amended) — the report carries one details entry per merged record
only: its length equals `mergedCount`, at most one entry exists per input
record, every entry's `index` points at an input record, and the indices are
strictly increasing (hence no record is described twice). -/
theorem c9_amended (pr : List Char → List Char → Nat) (paragraphs : List XNode)
    (commentsDoc : XNode) (nowIso : String) (items : List MergeItem) :
    (runMerge pr paragraphs commentsDoc nowIso items).details.length =
      (runMerge pr paragraphs commentsDoc nowIso items).mergedCount ∧
    (runMerge pr paragraphs commentsDoc nowIso items).mergedCount ≤ items.length ∧
    (∀ d ∈ (runMerge pr paragraphs commentsDoc nowIso items).details,
      d.index < items.length) ∧
    (runMerge pr paragraphs commentsDoc nowIso items).details.Pairwise
      (fun d1 d2 => d1.index < d2.index) := by
  obtain ⟨extra, h1, h2, h3, h4⟩ := mergeLoopAux_report pr (paragraphs.map getParagraphText)
    nowIso items 0 ⟨paragraphs, commentsDoc, getMaxCommentId commentsDoc + 1, 0, [], []⟩
  have h1' : (mergeLoopAux pr (paragraphs.map getParagraphText) nowIso items 0
      ⟨paragraphs, commentsDoc, getMaxCommentId commentsDoc + 1, 0, [], []⟩).details =
      extra := h1
  have h2' : (mergeLoopAux pr (paragraphs.map getParagraphText) nowIso items 0
      ⟨paragraphs, commentsDoc, getMaxCommentId commentsDoc + 1, 0, [], []⟩).mergedCount =
      0 + extra.length := h2
  have hrun : runMerge pr paragraphs commentsDoc nowIso items =
      mergeLoopAux pr (paragraphs.map getParagraphText) nowIso items 0
        ⟨paragraphs, commentsDoc, getMaxCommentId commentsDoc + 1, 0, [], []⟩ := rfl
  have hidx : ∀ d ∈ extra, d.index < items.length := by
    intro d hd
    have := h3 d hd
    omega
  have hcnt : extra.length ≤ items.length := by
    have hpw : (extra.map (fun d => d.index)).Pairwise (fun a b => a < b) :=
      List.pairwise_map.mpr h4
    have hb : ∀ x ∈ extra.map (fun d => d.index), 0 ≤ x ∧ x < items.length := by
      intro x hx
      rw [List.mem_map] at hx
      obtain ⟨d, hd, rfl⟩ := hx
      exact ⟨Nat.zero_le _, hidx d hd⟩
    have hle := pairwise_lt_length_le (extra.map (fun d => d.index)) 0 items.length hpw hb
    simpa using hle
  rw [hrun, h1']
  refine ⟨?_, ?_, hidx, h4⟩
  · rw [h2']
    omega
  · rw [h2']
    omega

end WalkDocx
